import Mathlib

/-!
Verification of the researcher search engine of cm3/nihu-rm.

The definitions below are a shallow embedding of the Python sources:
  - src/app_a/database.py      (generate_snippet, Database.search_researchers,
                                Database.count_researchers, Database.count_by_initial)
  - src/scripts/setup_db.py    (the researchers_fts schema those queries run against)
  - src/app_a/setup_db.py      (extract_title, extract_text_content, extract_url,
                                extract_achievements, import_json_data)

Strings are embedded as List Char.  SQLite behaviours that the code relies on
(LIKE matching, FTS5 trigram MATCH, ORDER BY binary collation) are modelled per
the documented semantics of those operators, as noted at each definition.
-/

/-- Conversion from a string literal to the List Char representation used throughout. -/
def chars (s : String) : List Char := s.data

/-- ASCII lower-casing of one character.  Models Python str.lower and the case folding
SQLite applies in LIKE and in the trigram tokenizer, both of which fold ASCII only
(CJK characters, which dominate this data set, are caseless). -/
def asciiLower (c : Char) : Char :=
  if 'A' ≤ c ∧ c ≤ 'Z' then Char.ofNat (c.toNat + 32) else c

/-- Lower-case every character of a string. -/
def lowerL (l : List Char) : List Char := l.map asciiLower

/-- Whitespace characters recognised by Python str.split with no argument
(ASCII subset, which covers the queries this service receives). -/
def isSpaceCh (c : Char) : Bool :=
  c = ' ' || c = '\t' || c = '\n' || c = '\r' || c = '\x0B' || c = '\x0C'

/-- Fueled worker for whitespace splitting (fuel bounds the string length). -/
def splitWsF : Nat → List Char → List (List Char)
  | _, [] => []
  | 0, _ => []
  | fuel + 1, c :: rest =>
    if isSpaceCh c then splitWsF fuel rest
    else ((c :: rest).takeWhile (fun x => !isSpaceCh x)) ::
      splitWsF fuel ((c :: rest).dropWhile (fun x => !isSpaceCh x))

/-- Python query.split(): split on runs of whitespace, discarding empty pieces. -/
def splitWs (l : List Char) : List (List Char) := splitWsF l.length l

/-- Minimum of a list of Nat, 0 on the empty list.  Models the guarded
  min(len(t) for t in query_terms) if query_terms else 0
from database.py lines 95 and 237. -/
def minList : List Nat → Nat
  | [] => 0
  | n :: ns => ns.foldl Nat.min n

/-- Minimum whitespace-separated term length of a query (0 when the query is
all whitespace), as computed by both search_researchers and count_researchers. -/
def minTermLen (q : List Char) : Nat := minList ((splitWs q).map List.length)

/-- First index at which needle occurs in hay (both already lower-cased);
models Python str.find returning an index instead of -1. -/
def findSub (needle : List Char) : List Char → Option Nat
  | [] => if needle.isPrefixOf ([] : List Char) then some 0 else none
  | c :: t => if needle.isPrefixOf (c :: t) then some 0 else (findSub needle t).map (· + 1)

/-- Case-insensitive first occurrence of query in text:
models text.lower().find(query.lower()) from generate_snippet. -/
def findCI (hay needle : List Char) : Option Nat := findSub (lowerL needle) (lowerL hay)

/-- Case-insensitive substring containment. -/
def substrCI (needle hay : List Char) : Bool := (findCI hay needle).isSome

/-- Case-insensitive prefix test. -/
def prefixCI (needle hay : List Char) : Bool := (lowerL needle).isPrefixOf (lowerL hay)

/-- Fueled worker for SQLite LIKE pattern matching; the fuel strictly exceeds
the combined pattern and string length, so the bail-out arm is unreachable. -/
def likeMatchF : Nat → List Char → List Char → Bool
  | 0, _, _ => false
  | _ + 1, [], s => s.isEmpty
  | fuel + 1, p :: ps, [] =>
    if p = '%' then likeMatchF fuel ps [] else false
  | fuel + 1, p :: ps, c :: t =>
    if p = '%' then likeMatchF fuel ps (c :: t) || likeMatchF fuel (p :: ps) t
    else if p = '_' then likeMatchF fuel ps t
    else (asciiLower p == asciiLower c) && likeMatchF fuel ps t

/-- SQLite LIKE pattern matching (documented SQLite semantics, applied to the
patterns database.py builds): percent matches any sequence, underscore matches
any single character, other characters compare ASCII-case-insensitively. -/
def likeMatch (p s : List Char) : Bool := likeMatchF (p.length + s.length + 1) p s

/-- The three-dot ellipsis added around truncated snippets. -/
def dotsL : List Char := chars "..."

/-- Opening highlight tag. -/
def markO : List Char := chars "<mark>"

/-- Closing highlight tag. -/
def markC : List Char := chars "</mark>"

/-- Fueled worker for the highlighting step (fuel bounds the string length). -/
def highlightF (q : List Char) : Nat → List Char → List Char
  | _, [] => []
  | 0, l => l
  | fuel + 1, c :: rest =>
    if q ≠ [] ∧ prefixCI q (c :: rest) then
      markO ++ (c :: rest).take q.length ++ markC ++
        highlightF q fuel ((c :: rest).drop q.length)
    else
      c :: highlightF q fuel rest

/-- Highlighting step of generate_snippet: models
  re.compile(re.escape(query), re.IGNORECASE).sub(lambda m: "<mark>" + m.group() + "</mark>", s),
which wraps each non-overlapping leftmost case-insensitive occurrence of query,
preserving the original casing of the matched span. -/
def highlight (q s : List Char) : List Char := highlightF q s.length s

/-- Fueled worker for markup removal (fuel bounds the string length). -/
def stripMarksF : Nat → List Char → List Char
  | _, [] => []
  | 0, l => l
  | fuel + 1, c :: rest =>
    if markO.isPrefixOf (c :: rest) then stripMarksF fuel ((c :: rest).drop markO.length)
    else if markC.isPrefixOf (c :: rest) then stripMarksF fuel ((c :: rest).drop markC.length)
    else c :: stripMarksF fuel rest

/-- Removal of the highlight markup: drops every occurrence of the opening and
closing mark tags, keeping all other characters. -/
def stripMarks (s : List Char) : List Char := stripMarksF s.length s

/-- Fueled worker counting opening mark tags. -/
def countTagF : Nat → List Char → Nat
  | _, [] => 0
  | 0, _ => 0
  | fuel + 1, c :: rest =>
    if markO.isPrefixOf (c :: rest) then 1 + countTagF fuel ((c :: rest).drop markO.length)
    else countTagF fuel rest

/-- Number of occurrences of the opening mark tag (counts highlight spans). -/
def countTag (s : List Char) : Nat := countTagF s.length s

/-- Fueled worker counting occurrences. -/
def countOccF (q : List Char) : Nat → List Char → Nat
  | _, [] => 0
  | 0, _ => 0
  | fuel + 1, c :: rest =>
    if q ≠ [] ∧ prefixCI q (c :: rest) then 1 + countOccF q fuel ((c :: rest).drop q.length)
    else countOccF q fuel rest

/-- Number of non-overlapping leftmost case-insensitive occurrences of q,
the occurrences the regex substitution of generate_snippet rewrites. -/
def countOcc (q s : List Char) : Nat := countOccF q s.length s

/-- Model of generate_snippet from src/app_a/database.py lines 12-42.
Python slicing text[start:stop] is drop start followed by take (stop - start),
and Nat subtraction models max(0, pos - context_chars). -/
def generate_snippet (text query : List Char) (context_chars : Nat) : Option (List Char) :=
  if text = [] ∨ query = [] then none
  else
    match findCI text query with
    | none => none
    | some pos =>
      let start := pos - context_chars
      let stop := min text.length (pos + query.length + context_chars)
      let snip := (text.drop start).take (stop - start)
      let snip2 := (if 0 < start then dotsL else []) ++ snip ++
        (if stop < text.length then dotsL else [])
      some (highlight query snip2)

/-!
The researcher table and its full-text index.  src/scripts/setup_db.py creates one
researchers row and one researchers_fts row per imported researcher, where the
researchers_fts row carries the identity columns plus one aggregated text column
per achievement section.  Database rows are modelled bundled (one ResearcherRow
per researcher), reflecting that one-to-one import correspondence, so a COUNT
over the fts JOIN researchers counts researchers.
-/

structure ResearcherRow where
  id : List Char
  name_ja : List Char
  name_en : List Char
  org1 : List Char
  org2 : List Char
  position : List Char
  papers_text : List Char
  books_text : List Char
  presentations_text : List Char
  awards_text : List Char
  research_interests_text : List Char
  research_areas_text : List Char
  research_projects_text : List Char
  misc_text : List Char
  works_text : List Char
  research_experience_text : List Char
  education_text : List Char
  committee_memberships_text : List Char
  teaching_experience_text : List Char
  association_memberships_text : List Char
deriving DecidableEq, Repr

/-- The indexed columns of researchers_fts in schema order (id is UNINDEXED;
the keywords column is always imported as the empty string). -/
def fts_indexed_cols (r : ResearcherRow) : List (List Char) :=
  [r.name_ja, r.name_en, r.org1, r.org2, r.position, [],
   r.papers_text, r.books_text, r.presentations_text, r.awards_text,
   r.research_interests_text, r.research_areas_text, r.research_projects_text,
   r.misc_text, r.works_text, r.research_experience_text, r.education_text,
   r.committee_memberships_text, r.teaching_experience_text,
   r.association_memberships_text]

/-- The fourteen per-section text columns, in the order of text_to_snippet_map
from src/app_a/database.py lines 170-185. -/
def snippet_text_cols (r : ResearcherRow) : List (List Char) :=
  [r.papers_text, r.books_text, r.presentations_text, r.awards_text,
   r.research_interests_text, r.research_areas_text, r.research_projects_text,
   r.misc_text, r.works_text, r.research_experience_text, r.education_text,
   r.committee_memberships_text, r.teaching_experience_text,
   r.association_memberships_text]

/-- The FTS5 OR operator keyword. -/
def orTok : List Char := chars "OR"

/-- Python ' OR '.join(query_terms). -/
def joinOR (ts : List (List Char)) : List Char := List.intercalate (chars " OR ") ts

/-- Evaluation of researchers_fts MATCH for the match strings this code builds
(whitespace-free terms of length at least three, joined by the OR operator).
Documented FTS5 semantics with the trigram tokenizer: the match string is
tokenized on whitespace, OR is the disjunction operator, and a term matches a
row when it occurs as a case-insensitive substring of some indexed column. -/
def fts_row_match (m : List Char) (r : ResearcherRow) : Bool :=
  ((splitWs m).filter (fun t => t ≠ orTok)).any (fun tok =>
    (fts_indexed_cols r).any (fun col => substrCI tok col))

/-- The LIKE fallback of database.py lines 129-147 and 255-266: the pattern
percent-query-percent applied to the ten columns named in the SQL, in order. -/
def like_row_match (q : List Char) (r : ResearcherRow) : Bool :=
  let p := '%' :: (q ++ ['%'])
  likeMatch p r.name_ja || likeMatch p r.name_en ||
  likeMatch p r.org1 || likeMatch p r.org2 || likeMatch p r.position ||
  likeMatch p r.papers_text || likeMatch p r.books_text ||
  likeMatch p r.presentations_text || likeMatch p r.misc_text ||
  likeMatch p r.research_projects_text

/-- Organisation filters: SQL equality (org1 = ?), guarded by Python truthiness
(an absent or empty filter value adds no condition). -/
def opt_str_filter (v : Option (List Char)) (field : List Char) : Bool :=
  match v with
  | Option.none => true
  | some s => if s = [] then true else field == s

/-- Initial filter: SQL name_en LIKE initial-percent, absent value adds no condition. -/
def opt_initial_filter (v : Option Char) (field : List Char) : Bool :=
  match v with
  | Option.none => true
  | some i => likeMatch (i :: ['%']) field

/-- The FTS match string built by search_researchers lines 99-102: terms joined
with the OR operator when there are several, the query itself for one. -/
def search_fts_query (q : List Char) : List Char :=
  if 1 < (splitWs q).length then joinOR (splitWs q) else q

/-- The FTS match string built by count_researchers lines 241-244 (the same
construction, transcribed from its own lines). -/
def count_fts_query (q : List Char) : List Char :=
  if 1 < (splitWs q).length then joinOR (splitWs q) else q

/-- Model of Database.count_researchers from src/app_a/database.py lines 208-282,
with its own transcription of the branch logic of lines 234-266. -/
def count_researchers (db : List ResearcherRow) (query : Option (List Char))
    (org1 org2 : Option (List Char)) (initial : Option Char) : Nat :=
  let base := fun (r : ResearcherRow) =>
    opt_str_filter org1 r.org1 && opt_str_filter org2 r.org2 &&
    opt_initial_filter initial r.name_en
  match query with
  | Option.none => (db.filter base).length
  | some q =>
    if q = [] then (db.filter base).length
    else
      let query_terms := splitWs q
      let min_term_len := minList (query_terms.map List.length)
      if 3 ≤ min_term_len then
        (db.filter (fun r => fts_row_match (count_fts_query q) r && base r)).length
      else
        (db.filter (fun r => like_row_match q r && base r)).length

/-- LIKE-path snippet assembly of src/app_a/database.py lines 190-195: one
generate_snippet call (default context 30) per section text column. -/
def like_snippets (q : List Char) (r : ResearcherRow) : List (Option (List Char)) :=
  (snippet_text_cols r).map (fun t => generate_snippet t q 30)

/-- ORDER BY name_en ASC under the BINARY collation: lexicographic comparison
by code point (UTF-8 byte order agrees with code-point order). -/
def leName : List Char → List Char → Bool
  | [], _ => true
  | _ :: _, [] => false
  | a :: s, b :: t => if a = b then leName s t else decide (a < b)

/-- Ordered insertion on the English name key (ties keep earlier rows first). -/
def insertByName (p : ResearcherRow × List (Option (List Char))) :
    List (ResearcherRow × List (Option (List Char))) →
    List (ResearcherRow × List (Option (List Char)))
  | [] => [p]
  | q :: t => if leName p.1.name_en q.1.name_en then p :: q :: t else q :: insertByName p t

/-- Stable sort on the English name key, modelling ORDER BY name_en ASC. -/
def sortByName : List (ResearcherRow × List (Option (List Char))) →
    List (ResearcherRow × List (Option (List Char)))
  | [] => []
  | p :: t => insertByName p (sortByName t)

/-- Model of Database.search_researchers from src/app_a/database.py lines 57-206,
with its own transcription of the branch logic of lines 90-147.  The snippet
columns the FTS path reads from the SQLite snippet() function are an external
dependency, passed in as ftsSnip.  Each returned entry pairs a researcher row
with the snippet values attached to it. -/
def search_researchers (ftsSnip : List Char → ResearcherRow → List (Option (List Char)))
    (db : List ResearcherRow) (query : Option (List Char))
    (org1 org2 : Option (List Char)) (initial : Option Char)
    (limit offset : Nat) : List (ResearcherRow × List (Option (List Char))) :=
  let base := fun (r : ResearcherRow) =>
    opt_str_filter org1 r.org1 && opt_str_filter org2 r.org2 &&
    opt_initial_filter initial r.name_en
  let selected :=
    match query with
    | Option.none => (db.filter base).map (fun r => (r, ([] : List (Option (List Char)))))
    | some q =>
      if q = [] then (db.filter base).map (fun r => (r, ([] : List (Option (List Char)))))
      else
        let query_terms := splitWs q
        let min_term_len := minList (query_terms.map List.length)
        if 3 ≤ min_term_len then
          (db.filter (fun r => fts_row_match (search_fts_query q) r && base r)).map
            (fun r => (r, ftsSnip (search_fts_query q) r))
        else
          (db.filter (fun r => like_row_match q r && base r)).map
            (fun r => (r, like_snippets q r))
  (((sortByName selected).drop offset).take limit)

/-- The twenty-six facet letters. -/
def lettersAZ : List Char := chars "ABCDEFGHIJKLMNOPQRSTUVWXYZ"

/-- Model of Database.count_by_initial from src/app_a/database.py lines 284-308:
one count_researchers call per letter A-Z. -/
def count_by_initial (db : List ResearcherRow) (query : Option (List Char))
    (org1 org2 : Option (List Char)) : List (Char × Nat) :=
  lettersAZ.map (fun i => (i, count_researchers db query org1 org2 (some i)))

/-- A researcher row with every column empty, used as a base for concrete instances. -/
def blankRow : ResearcherRow :=
  ⟨[], [], [], [], [], [], [], [], [], [], [], [], [], [], [], [], [], [], [], []⟩

/-!
Import pipeline of src/app_a/setup_db.py: raw researchmap JSON is normalised
into achievements, and one researchers row, one researchers_fts row, and one
achievements plus achievements_fts row pair per achievement are inserted.
JSON values are modelled by the inductive J below.
-/

inductive J where
  | s (v : List Char)
  | n (v : Int)
  | b (v : Bool)
  | o (fields : List (List Char × J))
  | a (items : List J)
  | null

/-- Python truthiness of a JSON value. -/
def jTruthy : J → Bool
  | J.s v => !v.isEmpty
  | J.n v => v ≠ 0
  | J.b v => v
  | J.o f => !f.isEmpty
  | J.a xs => !xs.isEmpty
  | J.null => false

/-- Python str() of a JSON value.  Composite values stringify to their repr,
which is never empty; only its non-emptiness is relied on downstream, so it is
rendered as a fixed token here. -/
def jStr : J → List Char
  | J.s v => v
  | J.n v => chars (toString v)
  | J.b true => chars "True"
  | J.b false => chars "False"
  | J.o _ => chars "object"
  | J.a _ => chars "list"
  | J.null => chars "None"

/-- Python dict lookup (keys are unique in a dict; first binding wins). -/
def jGet (fields : List (List Char × J)) (k : List Char) : Option J :=
  (fields.find? (fun p => p.1 == k)).map Prod.snd

/-- Python d.get(k, '') or '' restricted to string values: missing keys, None
and the empty string all give the empty string.  (A non-string value in a
language slot would make the Python slicing raise; such records do not occur
and are modelled as absent.) -/
def jGetStr (fields : List (List Char × J)) (k : List Char) : List Char :=
  match jGet fields k with
  | some (J.s v) => v
  | _ => []

/-- TITLE_FIELDS from src/app_a/setup_db.py lines 32-37, in priority order. -/
def TITLE_FIELDS : List (List Char) :=
  [chars "paper_title", chars "title", chars "award_title", chars "presentation_title",
   chars "research_project_title", chars "name", chars "work_title", chars "research_field",
   chars "subject", chars "committee_name", chars "association_name",
   chars "organization_name", chars "course_title", chars "field"]

/-- Iteration of extract_title over the candidate fields, carrying the
running (title_ja, title_en) assignments exactly as the Python loop does:
a language-map field with a non-empty value breaks, a plain string breaks
assigning the Japanese slot only, anything else falls through. -/
def extract_title_go (item : List (List Char × J)) :
    List (List Char) → List Char × List Char → List Char × List Char
  | [], cur => cur
  | f :: rest, cur =>
    match jGet item f with
    | some (J.o tf) =>
      let ja := jGetStr tf (chars "ja")
      let en := jGetStr tf (chars "en")
      if ja ≠ [] ∨ en ≠ [] then (ja, en)
      else extract_title_go item rest (ja, en)
    | some (J.s v) => (v, cur.2)
    | some _ => extract_title_go item rest cur
    | Option.none => extract_title_go item rest cur

/-- Model of extract_title from src/app_a/setup_db.py lines 115-132,
including the 500-character truncation of both slots. -/
def extract_title (item : List (List Char × J)) : List Char × List Char :=
  let p := extract_title_go item TITLE_FIELDS ([], [])
  (p.1.take 500, p.2.take 500)

/-- Author-name collection of extract_text_content lines 147-156: dict entries
with a name key contribute str(name). -/
def author_names (xs : List J) : List (List Char) :=
  xs.filterMap (fun a =>
    match a with
    | J.o f =>
      (match jGet f (chars "name") with
       | some v => some (jStr v)
       | Option.none => Option.none)
    | _ => Option.none)

/-- Authors part: first language whose list yields any entries wins; at most
five names, space-joined. -/
def authors_part (item : List (List Char × J)) : List (List Char) :=
  match jGet item (chars "authors") with
  | some (J.o af) =>
    let tryLang := fun (lang : List Char) =>
      match jGet af lang with
      | some (J.a xs) => author_names xs
      | _ => []
    let ja := tryLang (chars "ja")
    if ja ≠ [] then [List.intercalate [' '] (ja.take 5)]
    else
      let en := tryLang (chars "en")
      if en ≠ [] then [List.intercalate [' '] (en.take 5)] else []
  | _ => []

/-- Venue part of one publication key (lines 159-168): language maps pick the
first truthy language value, plain non-empty strings are used as-is. -/
def pub_part_of (item : List (List Char × J)) (k : List Char) : List (List Char) :=
  match jGet item k with
  | some (J.o pf) =>
    let tryLang := fun (lang : List Char) =>
      match jGet pf lang with
      | some v => if jTruthy v then some (jStr v) else Option.none
      | Option.none => Option.none
    (match tryLang (chars "ja") with
     | some t => [t]
     | Option.none =>
       match tryLang (chars "en") with
       | some t => [t]
       | Option.none => [])
  | some (J.s v) => if v ≠ [] then [v] else []
  | _ => []

/-- All venue parts: the four candidate keys each contribute (no break across keys). -/
def pub_parts (item : List (List Char × J)) : List (List Char) :=
  ([chars "publication_name", chars "publisher", chars "affiliation", chars "organization"]).flatMap
    (pub_part_of item)

/-- Description part (lines 171-181): first key producing a non-empty text wins,
truncated to 300 characters; language maps fall back ja to en. -/
def desc_part_go (item : List (List Char × J)) : List (List Char) → List (List Char)
  | [] => []
  | k :: rest =>
    match jGet item k with
    | some (J.o df) =>
      let tja := jGetStr df (chars "ja")
      let t := if tja ≠ [] then tja else jGetStr df (chars "en")
      if t ≠ [] then [t.take 300] else desc_part_go item rest
    | some (J.s v) => if v ≠ [] then [v.take 300] else desc_part_go item rest
    | some _ => desc_part_go item rest
    | Option.none => desc_part_go item rest

/-- Description part over the candidate keys of line 171. -/
def desc_part (item : List (List Char × J)) : List (List Char) :=
  desc_part_go item [chars "summary", chars "description", chars "content", chars "outline"]

/-- Date part (lines 184-187): first present truthy date-like key, stringified. -/
def date_part_go (item : List (List Char × J)) : List (List Char) → List (List Char)
  | [] => []
  | k :: rest =>
    match jGet item k with
    | some v => if jTruthy v then [jStr v] else date_part_go item rest
    | Option.none => date_part_go item rest

/-- Date part over the candidate keys of line 184. -/
def date_part (item : List (List Char × J)) : List (List Char) :=
  date_part_go item [chars "publication_date", chars "year", chars "start_year", chars "award_date"]

/-- The parts list assembled by extract_text_content lines 137-187, in order. -/
def content_parts (item : List (List Char × J)) : List (List Char) :=
  let t := extract_title item
  (if t.1 ≠ [] then [t.1] else []) ++
  (if t.2 ≠ [] then [t.2] else []) ++
  authors_part item ++ pub_parts item ++ desc_part item ++ date_part item

/-- Model of extract_text_content from src/app_a/setup_db.py lines 135-189:
the content blob is the slash-joined parts list, empty when no part was found. -/
def extract_text_content (item : List (List Char × J)) : List Char :=
  let parts := content_parts item
  if parts = [] then [] else List.intercalate (chars " / ") parts

/-- Fueled worker for Python str.replace. -/
def replaceAllF (pat rep : List Char) : Nat → List Char → List Char
  | _, [] => []
  | 0, l => l
  | fuel + 1, c :: rest =>
    if pat ≠ [] ∧ pat.isPrefixOf (c :: rest) then
      rep ++ replaceAllF pat rep fuel ((c :: rest).drop pat.length)
    else
      c :: replaceAllF pat rep fuel rest

/-- Python str.replace: rewrite every non-overlapping occurrence of pat
(assumed non-empty) by rep, scanning left to right. -/
def replaceAll (pat rep s : List Char) : List Char := replaceAllF pat rep s.length s

/-- Model of extract_url from src/app_a/setup_db.py lines 192-197: the API id
with the API host rewritten to the public host, empty when absent. -/
def extract_url (item : List (List Char × J)) : List Char :=
  match jGet item (chars "@id") with
  | some (J.s v) =>
    if v ≠ [] then replaceAll (chars "api.researchmap.jp") (chars "researchmap.jp") v else []
  | _ => []

/-- SECTION_MAP from src/app_a/setup_db.py lines 14-29, in insertion order. -/
def SECTION_MAP : List (List Char × List Char) :=
  [(chars "published_papers", chars "papers"),
   (chars "books_etc", chars "books"),
   (chars "presentations", chars "presentations"),
   (chars "awards", chars "awards"),
   (chars "research_interests", chars "research_interests"),
   (chars "research_areas", chars "research_areas"),
   (chars "research_projects", chars "research_projects"),
   (chars "misc", chars "misc"),
   (chars "works", chars "works"),
   (chars "research_experience", chars "research_experience"),
   (chars "education", chars "education"),
   (chars "committee_memberships", chars "committee_memberships"),
   (chars "teaching_experience", chars "teaching_experience"),
   (chars "association_memberships", chars "association_memberships")]

structure Achievement where
  researcher_id : List Char
  sect : List Char
  title_ja : List Char
  title_en : List Char
  text_content : List Char
  url : List Char
deriving DecidableEq, Repr

/-- Loop body of extract_achievements lines 214-232: a non-dict item or an
item whose extracted content blob is empty yields no achievement. -/
def item_to_achievement (researcher_id sect : List Char) (it : J) : Option Achievement :=
  match it with
  | J.o f =>
    let tc := extract_text_content f
    if tc = [] then Option.none
    else
      let t := extract_title f
      some ⟨researcher_id, sect, t.1, t.2, tc, extract_url f⟩
  | _ => Option.none

/-- Model of extract_achievements from src/app_a/setup_db.py lines 200-234.
A falsy researchmap_data yields nothing; each mapped section contributes the
achievements of its items list.  (A truthy non-dict value at the top level or
at a section would raise in Python; such records do not occur.) -/
def extract_achievements (researchmap_data : J) (researcher_id : List Char) : List Achievement :=
  match researchmap_data with
  | J.o rf =>
    if rf.isEmpty then []
    else
      SECTION_MAP.flatMap (fun sec =>
        let items :=
          match jGet rf sec.1 with
          | some (J.o sf) =>
            (match jGet sf (chars "items") with
             | some (J.a xs) => xs
             | _ => [])
          | _ => []
        items.filterMap (item_to_achievement researcher_id sec.2))
  | _ => []

structure SourceRecord where
  id : List Char
  name_ja : List Char
  name_en : List Char
  avatar_url : List Char
  org1 : List Char
  org2 : List Char
  position : List Char
  researchmap_url : List Char
  researchmap_data : J

structure ResearcherRec where
  id : List Char
  name_ja : List Char
  name_en : List Char
  avatar_url : List Char
  org1 : List Char
  org2 : List Char
  position : List Char
  researchmap_url : List Char
deriving DecidableEq, Repr

structure IdxRow where
  id : List Char
  name_ja : List Char
  name_en : List Char
  org1 : List Char
  org2 : List Char
  position : List Char
deriving DecidableEq, Repr

structure AchFtsRow where
  aid : Nat
  researcher_id : List Char
  sect : List Char
  text_content : List Char
deriving DecidableEq, Repr

structure DbState where
  researchers : List ResearcherRec
  researchers_fts : List IdxRow
  achievements : List (Nat × Achievement)
  achievements_fts : List AchFtsRow
  next_id : Nat
deriving DecidableEq, Repr

/-- The achievements_fts row mirroring one stored achievement (lines 303-306). -/
def achFts (p : Nat × Achievement) : AchFtsRow :=
  ⟨p.1, p.2.researcher_id, p.2.sect, p.2.text_content⟩

/-- The researchers row inserted for one source record (lines 259-268). -/
def recRow (d : SourceRecord) : ResearcherRec :=
  ⟨d.id, d.name_ja, d.name_en, d.avatar_url, d.org1, d.org2, d.position, d.researchmap_url⟩

/-- The researchers_fts row inserted for one source record (lines 271-274). -/
def recIdx (d : SourceRecord) : IdxRow :=
  ⟨d.id, d.name_ja, d.name_en, d.org1, d.org2, d.position⟩

/-- SQLite INSERT OR REPLACE on the researchers primary key: any existing row
with the same id is deleted, the new row inserted. -/
def upsert_researcher (rs : List ResearcherRec) (r : ResearcherRec) : List ResearcherRec :=
  (rs.filter (fun x => x.id ≠ r.id)) ++ [r]

/-- Processing of one parsed record by import_json_data lines 251-311:
one researchers upsert, one researchers_fts insert, and per extracted
achievement one achievements insert (sequential AUTOINCREMENT id, the
lastrowid) mirrored by one achievements_fts insert. -/
def insert_record (st : DbState) (d : SourceRecord) : DbState :=
  let achs := extract_achievements d.researchmap_data d.id
  let numbered := achs.enum.map (fun p => (st.next_id + p.1, p.2))
  { researchers := upsert_researcher st.researchers (recRow d)
    researchers_fts := st.researchers_fts ++ [recIdx d]
    achievements := st.achievements ++ numbered
    achievements_fts := st.achievements_fts ++ numbered.map achFts
    next_id := st.next_id + achs.length }

/-- The freshly created database (AUTOINCREMENT ids start at 1). -/
def emptyDb : DbState := ⟨[], [], [], [], 1⟩

/-- Record loop of import_json_data lines 247-311.  Each input is the outcome
of reading and parsing one JSON file; json.load has no surrounding handler, so
a failure propagates and the loop stops at the first failing record. -/
def import_go (st : DbState) : List (Except Unit SourceRecord) → Except Unit DbState
  | [] => Except.ok st
  | Except.error e :: _ => Except.error e
  | Except.ok d :: rest => import_go (insert_record st d) rest

/-- Model of import_json_data from src/app_a/setup_db.py lines 237-315:
the transaction commits only after the whole loop, so a run aborted by a
parse failure persists nothing, which the error outcome (carrying no state)
represents. -/
def import_json_data (files : List (Except Unit SourceRecord)) : Except Unit DbState :=
  import_go emptyDb files

/-!
Derived notions used to state the verified properties.
-/

inductive QueryPlan where
  | base
  | fts (matchStr : List Char)
  | like (pattern : List Char)
deriving DecidableEq, Repr

/-- Branch selection of search_researchers lines 90-128: no or empty query
takes the unfiltered base path, minimum term length at least three the indexed
path, anything else the LIKE fallback with the percent-wrapped whole query. -/
def search_query_plan (query : Option (List Char)) : QueryPlan :=
  match query with
  | Option.none => QueryPlan.base
  | some q =>
    if q = [] then QueryPlan.base
    else if 3 ≤ minTermLen q then QueryPlan.fts (search_fts_query q)
    else QueryPlan.like ('%' :: (q ++ ['%']))

/-- Branch selection of count_researchers lines 234-254, transcribed from its
own lines. -/
def count_query_plan (query : Option (List Char)) : QueryPlan :=
  match query with
  | Option.none => QueryPlan.base
  | some q =>
    if q = [] then QueryPlan.base
    else if 3 ≤ minTermLen q then QueryPlan.fts (count_fts_query q)
    else QueryPlan.like ('%' :: (q ++ ['%']))

/-- The query-and-organisation part of the row predicate of count_researchers
(everything except the initial filter), in specification form. -/
def row_pred (query : Option (List Char)) (org1 org2 : Option (List Char))
    (r : ResearcherRow) : Bool :=
  (match query with
   | Option.none => true
   | some q =>
     if q = [] then true
     else if 3 ≤ minTermLen q then fts_row_match (count_fts_query q) r
     else like_row_match q r) &&
  opt_str_filter org1 r.org1 && opt_str_filter org2 r.org2

/-- Case-insensitive first-character test (specification form of the initial filter). -/
def firstCharCI (i : Char) (name : List Char) : Bool :=
  match name with
  | [] => false
  | c :: _ => asciiLower c == asciiLower i

/-- Whether a name begins with an ASCII letter (so that some facet letter covers it). -/
def startsAsciiLetter (name : List Char) : Bool :=
  match name with
  | [] => false
  | c :: _ => lettersAZ.any (fun i => asciiLower c == asciiLower i)

/-- Sum of the facet counts returned by count_by_initial. -/
def sumCounts (cs : List (Char × Nat)) : Nat := (cs.map Prod.snd).sum

/-- The token sequence whitespace-tokenizing an OR-joined term list produces:
the terms interleaved with the OR keyword. -/
def interOR : List (List Char) → List (List Char)
  | [] => []
  | [t] => [t]
  | t :: rest => t :: orTok :: interOR rest

/-!
Concrete instances used by counterexamples and witnesses.
-/

/-- A researcher whose stored English name is lower-case. -/
def rSmith : ResearcherRow := { blankRow with id := chars "r1", name_en := chars "smith" }

/-- A researcher whose stored English name starts with a CJK character. -/
def rYamada : ResearcherRow :=
  { blankRow with id := chars "r2", name_ja := chars "山田", name_en := chars "山田" }

/-- A researcher matched only inside the awards section text. -/
def rAwards : ResearcherRow :=
  { blankRow with id := chars "r3", name_en := chars "Abe", awards_text := chars "zq stuff" }

/-- A researcher matched only on the stored name. -/
def rNamed : ResearcherRow :=
  { blankRow with id := chars "r4", name_en := chars "zq person" }

/-- A researcher all fourteen of whose section texts contain the two-character query ab. -/
def rAllMatch : ResearcherRow :=
  { blankRow with
    id := chars "r5", name_en := chars "Ab Cd",
    papers_text := chars "ab", books_text := chars "ab", presentations_text := chars "ab",
    awards_text := chars "ab", research_interests_text := chars "ab",
    research_areas_text := chars "ab", research_projects_text := chars "ab",
    misc_text := chars "ab", works_text := chars "ab",
    research_experience_text := chars "ab", education_text := chars "ab",
    committee_memberships_text := chars "ab", teaching_experience_text := chars "ab",
    association_memberships_text := chars "ab" }

/-- A well-formed source record with one paper achievement. -/
def recPaper : SourceRecord :=
  ⟨chars "r10", chars "名前", chars "Name A", [], chars "歴博", [], chars "教授",
   chars "u1",
   J.o [(chars "published_papers",
         J.o [(chars "items",
               J.a [J.o [(chars "paper_title", J.s (chars "Abc")),
                         (chars "publication_date", J.n 2020)]])])]⟩

/-- A well-formed source record with no achievement data. -/
def recPlain : SourceRecord :=
  ⟨chars "r11", chars "名前2", chars "Name B", [], [], [], chars "助教", chars "u2", J.null⟩

/-!
Fuel irrelevance and wrapper equations for the fueled scanners.
-/

theorem likeMatchF_irrel : ∀ (f1 : Nat) (p s : List Char) (f2 : Nat),
    p.length + s.length < f1 → p.length + s.length < f2 →
    likeMatchF f1 p s = likeMatchF f2 p s := by
  intro f1
  induction f1 with
  | zero => intro p s f2 h1 h2; omega
  | succ f ih =>
    intro p s f2 h1 h2
    cases f2 with
    | zero => omega
    | succ g =>
      cases p with
      | nil => simp [likeMatchF]
      | cons a ps =>
        simp only [List.length_cons] at h1 h2
        cases s with
        | nil =>
          simp only [likeMatchF]
          by_cases ha : a = '%'
          · rw [if_pos ha, if_pos ha,
              ih ps [] g (by simp; omega) (by simp; omega)]
          · rw [if_neg ha, if_neg ha]
        | cons c t =>
          simp only [List.length_cons] at h1 h2
          simp only [likeMatchF]
          by_cases ha : a = '%'
          · rw [if_pos ha, if_pos ha,
              ih ps (c :: t) g (by simp; omega) (by simp; omega),
              ih (a :: ps) t g (by simp; omega) (by simp; omega)]
          · by_cases hb : a = '_'
            · rw [if_neg ha, if_neg ha, if_pos hb, if_pos hb,
                ih ps t g (by omega) (by omega)]
            · rw [if_neg ha, if_neg ha, if_neg hb, if_neg hb,
                ih ps t g (by omega) (by omega)]

theorem likeMatchF_eq_likeMatch (f : Nat) (p s : List Char)
    (h : p.length + s.length < f) : likeMatchF f p s = likeMatch p s :=
  likeMatchF_irrel f p s (p.length + s.length + 1) h (by omega)

theorem likeMatch_nil_eq (s : List Char) : likeMatch [] s = s.isEmpty := by
  simp [likeMatch, likeMatchF]

theorem highlightF_irrel (q : List Char) : ∀ (f1 : Nat) (s : List Char) (f2 : Nat),
    s.length ≤ f1 → s.length ≤ f2 →
    highlightF q f1 s = highlightF q f2 s := by
  intro f1
  induction f1 with
  | zero =>
    intro s f2 h1 h2
    cases s with
    | nil => cases f2 <;> rfl
    | cons c rest => simp at h1
  | succ f ih =>
    intro s f2 h1 h2
    cases s with
    | nil => cases f2 <;> rfl
    | cons c rest =>
      cases f2 with
      | zero => simp at h2
      | succ g =>
        simp only [List.length_cons] at h1 h2
        simp only [highlightF]
        split
        · rename_i h
          have hq : 0 < q.length := List.length_pos.mpr h.1
          have h3 : ((c :: rest).drop q.length).length ≤ f := by
            simp only [List.length_drop, List.length_cons]
            omega
          have h4 : ((c :: rest).drop q.length).length ≤ g := by
            simp only [List.length_drop, List.length_cons]
            omega
          rw [ih _ g h3 h4]
        · have h3 : rest.length ≤ f := by omega
          have h4 : rest.length ≤ g := by omega
          rw [ih rest g h3 h4]

theorem highlight_nil_eq (q : List Char) : highlight q [] = [] := rfl

theorem highlight_cons_eq (q : List Char) (c : Char) (rest : List Char) :
    highlight q (c :: rest) =
      (if q ≠ [] ∧ prefixCI q (c :: rest) then
        markO ++ (c :: rest).take q.length ++ markC ++
          highlight q ((c :: rest).drop q.length)
      else
        c :: highlight q rest) := by
  show highlightF q (c :: rest).length (c :: rest) = _
  rw [show (c :: rest).length = rest.length + 1 from rfl]
  simp only [highlightF]
  split
  · rename_i h
    have hq : 0 < q.length := List.length_pos.mpr h.1
    rw [highlightF_irrel q rest.length ((c :: rest).drop q.length)
      ((c :: rest).drop q.length).length
      (by simp only [List.length_drop, List.length_cons]; omega) (by omega)]
    rfl
  · rw [highlightF_irrel q rest.length rest rest.length (by omega) (by omega)]
    rfl

theorem stripMarksF_irrel : ∀ (f1 : Nat) (s : List Char) (f2 : Nat),
    s.length ≤ f1 → s.length ≤ f2 →
    stripMarksF f1 s = stripMarksF f2 s := by
  intro f1
  induction f1 with
  | zero =>
    intro s f2 h1 h2
    cases s with
    | nil => cases f2 <;> rfl
    | cons c rest => simp at h1
  | succ f ih =>
    intro s f2 h1 h2
    cases s with
    | nil => cases f2 <;> rfl
    | cons c rest =>
      cases f2 with
      | zero => simp at h2
      | succ g =>
        simp only [List.length_cons] at h1 h2
        simp only [stripMarksF]
        have hdropO : ((c :: rest).drop markO.length).length ≤ f ∧
            ((c :: rest).drop markO.length).length ≤ g := by
          constructor <;> simp [markO, chars, List.length_drop] <;> omega
        have hdropC : ((c :: rest).drop markC.length).length ≤ f ∧
            ((c :: rest).drop markC.length).length ≤ g := by
          constructor <;> simp [markC, chars, List.length_drop] <;> omega
        split
        · rw [ih _ g hdropO.1 hdropO.2]
        · split
          · rw [ih _ g hdropC.1 hdropC.2]
          · rw [ih rest g (by omega) (by omega)]

theorem stripMarks_nil_eq : stripMarks [] = [] := rfl

theorem stripMarks_cons_eq (c : Char) (rest : List Char) :
    stripMarks (c :: rest) =
      (if markO.isPrefixOf (c :: rest) then stripMarks ((c :: rest).drop markO.length)
      else if markC.isPrefixOf (c :: rest) then stripMarks ((c :: rest).drop markC.length)
      else c :: stripMarks rest) := by
  show stripMarksF (c :: rest).length (c :: rest) = _
  rw [show (c :: rest).length = rest.length + 1 from rfl]
  simp only [stripMarksF]
  split
  · rw [stripMarksF_irrel rest.length ((c :: rest).drop markO.length)
      ((c :: rest).drop markO.length).length
      (by simp [markO, chars, List.length_drop]) (by omega)]
    rfl
  · split
    · rw [stripMarksF_irrel rest.length ((c :: rest).drop markC.length)
        ((c :: rest).drop markC.length).length
        (by simp [markC, chars, List.length_drop]) (by omega)]
      rfl
    · rw [stripMarksF_irrel rest.length rest rest.length (by omega) (by omega)]
      rfl

theorem countTagF_irrel : ∀ (f1 : Nat) (s : List Char) (f2 : Nat),
    s.length ≤ f1 → s.length ≤ f2 →
    countTagF f1 s = countTagF f2 s := by
  intro f1
  induction f1 with
  | zero =>
    intro s f2 h1 h2
    cases s with
    | nil => cases f2 <;> rfl
    | cons c rest => simp at h1
  | succ f ih =>
    intro s f2 h1 h2
    cases s with
    | nil => cases f2 <;> rfl
    | cons c rest =>
      cases f2 with
      | zero => simp at h2
      | succ g =>
        simp only [List.length_cons] at h1 h2
        simp only [countTagF]
        split
        · rw [ih ((c :: rest).drop markO.length) g
            (by simp [markO, chars, List.length_drop]; omega)
            (by simp [markO, chars, List.length_drop]; omega)]
        · rw [ih rest g (by omega) (by omega)]

theorem countTag_nil_eq : countTag [] = 0 := rfl

theorem countTag_cons_eq (c : Char) (rest : List Char) :
    countTag (c :: rest) =
      (if markO.isPrefixOf (c :: rest) then 1 + countTag ((c :: rest).drop markO.length)
      else countTag rest) := by
  show countTagF (c :: rest).length (c :: rest) = _
  rw [show (c :: rest).length = rest.length + 1 from rfl]
  simp only [countTagF]
  split
  · rw [countTagF_irrel rest.length ((c :: rest).drop markO.length)
      ((c :: rest).drop markO.length).length
      (by simp [markO, chars, List.length_drop]) (by omega)]
    rfl
  · rw [countTagF_irrel rest.length rest rest.length (by omega) (by omega)]
    rfl

theorem countOccF_irrel (q : List Char) : ∀ (f1 : Nat) (s : List Char) (f2 : Nat),
    s.length ≤ f1 → s.length ≤ f2 →
    countOccF q f1 s = countOccF q f2 s := by
  intro f1
  induction f1 with
  | zero =>
    intro s f2 h1 h2
    cases s with
    | nil => cases f2 <;> rfl
    | cons c rest => simp at h1
  | succ f ih =>
    intro s f2 h1 h2
    cases s with
    | nil => cases f2 <;> rfl
    | cons c rest =>
      cases f2 with
      | zero => simp at h2
      | succ g =>
        simp only [List.length_cons] at h1 h2
        simp only [countOccF]
        split
        · rename_i h
          have hq : 0 < q.length := List.length_pos.mpr h.1
          rw [ih ((c :: rest).drop q.length) g
            (by simp only [List.length_drop, List.length_cons]; omega)
            (by simp only [List.length_drop, List.length_cons]; omega)]
        · rw [ih rest g (by omega) (by omega)]

theorem countOcc_nil_eq (q : List Char) : countOcc q [] = 0 := rfl

theorem countOcc_cons_eq (q : List Char) (c : Char) (rest : List Char) :
    countOcc q (c :: rest) =
      (if q ≠ [] ∧ prefixCI q (c :: rest) then 1 + countOcc q ((c :: rest).drop q.length)
      else countOcc q rest) := by
  show countOccF q (c :: rest).length (c :: rest) = _
  rw [show (c :: rest).length = rest.length + 1 from rfl]
  simp only [countOccF]
  split
  · rename_i h
    have hq : 0 < q.length := List.length_pos.mpr h.1
    rw [countOccF_irrel q rest.length ((c :: rest).drop q.length)
      ((c :: rest).drop q.length).length
      (by simp only [List.length_drop, List.length_cons]; omega) (by omega)]
    rfl
  · rw [countOccF_irrel q rest.length rest rest.length (by omega) (by omega)]
    rfl

/-!
Facts about case-insensitive prefix, substring search and LIKE patterns.
-/

theorem charBeq_comm (x y : Char) : (x == y) = (y == x) := by
  by_cases h : x = y
  · subst h; rfl
  · have h2 : ¬ y = x := fun hh => h hh.symm
    simp [h, h2]

theorem prefixCI_nil (s : List Char) : prefixCI [] s = true := by
  simp [prefixCI, lowerL, List.isPrefixOf]

theorem prefixCI_cons_nil (a : Char) (qs : List Char) : prefixCI (a :: qs) [] = false := by
  simp [prefixCI, lowerL, List.isPrefixOf]

theorem prefixCI_cons (a : Char) (qs : List Char) (c : Char) (t : List Char) :
    prefixCI (a :: qs) (c :: t) = ((asciiLower a == asciiLower c) && prefixCI qs t) := by
  simp [prefixCI, lowerL, List.isPrefixOf]

theorem prefixCI_nil_right (q : List Char) : prefixCI q [] = q.isEmpty := by
  cases q with
  | nil => simp [prefixCI_nil]
  | cons a qs => simp [prefixCI_cons_nil]

theorem substrCI_nil (q : List Char) : substrCI q [] = q.isEmpty := by
  cases q with
  | nil => simp [substrCI, findCI, lowerL, findSub, List.isPrefixOf]
  | cons a qs => simp [substrCI, findCI, lowerL, findSub, List.isPrefixOf]

theorem substrCI_cons (q : List Char) (c : Char) (t : List Char) :
    substrCI q (c :: t) = (prefixCI q (c :: t) || substrCI q t) := by
  simp only [substrCI, findCI, lowerL, List.map_cons, findSub]
  split
  · rename_i h
    have hp : prefixCI q (c :: t) = true := by
      simp only [prefixCI, lowerL, List.map_cons]
      exact h
    simp [hp]
  · rename_i h
    have hp : prefixCI q (c :: t) = false := by
      simp only [prefixCI, lowerL, List.map_cons]
      exact Bool.eq_false_iff.mpr h
    rw [hp]
    cases findSub (List.map asciiLower q) (List.map asciiLower t) <;> simp

theorem findSub_le : ∀ (h0 : List Char) (n : List Char) (k : Nat),
    findSub n h0 = some k → k ≤ h0.length := by
  intro h0
  induction h0 with
  | nil =>
    intro n k hk
    simp [findSub] at hk
    rcases hk with ⟨h1, h2⟩
    omega
  | cons c t ih =>
    intro n k hk
    simp only [findSub] at hk
    split at hk
    · simp at hk
      omega
    · cases he : findSub n t with
      | none => rw [he] at hk; simp at hk
      | some j =>
        rw [he] at hk
        simp at hk
        have := ih n j he
        simp
        omega

theorem findCI_le (text q : List Char) (pos : Nat) (h : findCI text q = some pos) :
    pos ≤ text.length := by
  have := findSub_le (lowerL text) (lowerL q) pos h
  simpa [lowerL] using this

theorem likeMatchF_pct_all : ∀ (f : Nat) (s : List Char), s.length + 1 < f →
    likeMatchF f ['%'] s = true := by
  intro f
  induction f with
  | zero => intro s h; omega
  | succ f ih =>
    intro s h
    cases s with
    | nil =>
      cases f with
      | zero => omega
      | succ f2 => simp [likeMatchF]
    | cons c t =>
      simp only [List.length_cons] at h
      simp only [likeMatchF, if_pos rfl]
      rw [ih t (by omega)]
      simp

theorem likeMatchF_lit_pct : ∀ (f : Nat) (q s : List Char), '%' ∉ q → '_' ∉ q →
    q.length + s.length + 1 < f →
    likeMatchF f (q ++ ['%']) s = prefixCI q s := by
  intro f
  induction f with
  | zero => intro q s h1 h2 h; omega
  | succ f ih =>
    intro q s hq1 hq2 h
    cases q with
    | nil =>
      rw [List.nil_append]
      rw [likeMatchF_pct_all (f + 1) s (by simp at h; omega)]
      rw [prefixCI_nil]
    | cons a qs =>
      have ha1 : ¬ a = '%' := fun hh => hq1 (by simp [hh])
      have ha2 : ¬ a = '_' := fun hh => hq2 (by simp [hh])
      rw [List.cons_append]
      cases s with
      | nil =>
        simp only [likeMatchF, if_neg ha1]
        rw [prefixCI_cons_nil]
      | cons c t =>
        simp only [List.length_cons] at h
        have hmem1 : '%' ∉ qs := fun hm => hq1 (List.mem_cons_of_mem a hm)
        have hmem2 : '_' ∉ qs := fun hm => hq2 (List.mem_cons_of_mem a hm)
        simp only [likeMatchF, if_neg ha1, if_neg ha2]
        rw [ih qs t hmem1 hmem2 (by omega)]
        rw [prefixCI_cons]

theorem likeMatchF_sub : ∀ (f : Nat) (q s : List Char), '%' ∉ q → '_' ∉ q →
    q.length + s.length + 2 < f →
    likeMatchF f ('%' :: (q ++ ['%'])) s = substrCI q s := by
  intro f
  induction f with
  | zero => intro q s h1 h2 h; omega
  | succ f ih =>
    intro q s hq1 hq2 h
    cases s with
    | nil =>
      simp only [likeMatchF, if_pos rfl]
      rw [likeMatchF_lit_pct f q [] hq1 hq2 (by simp; omega)]
      rw [prefixCI_nil_right, substrCI_nil]
      simp
    | cons c t =>
      simp only [List.length_cons] at h
      simp only [likeMatchF, if_pos rfl]
      rw [likeMatchF_lit_pct f q (c :: t) hq1 hq2 (by simp; omega)]
      rw [ih q t hq1 hq2 (by omega)]
      rw [substrCI_cons]
      simp

theorem likeMatch_sub (q : List Char) (hq1 : '%' ∉ q) (hq2 : '_' ∉ q) (s : List Char) :
    likeMatch ('%' :: (q ++ ['%'])) s = substrCI q s := by
  show likeMatchF (('%' :: (q ++ ['%'])).length + s.length + 1) ('%' :: (q ++ ['%'])) s = _
  exact likeMatchF_sub _ q s hq1 hq2 (by simp; omega)

theorem likeMatch_initial (i : Char) (h1 : ¬ i = '%') (h2 : ¬ i = '_') (name : List Char) :
    likeMatch (i :: ['%']) name = firstCharCI i name := by
  cases name with
  | nil =>
    show likeMatchF _ _ _ = _
    simp [likeMatchF, h1, firstCharCI]
  | cons c t =>
    show likeMatchF ((i :: ['%']).length + (c :: t).length + 1) (i :: ['%']) (c :: t) = _
    have hf : (i :: ['%']).length + (c :: t).length + 1 = (t.length + 3) + 1 := by
      simp
      omega
    rw [hf]
    simp only [likeMatchF, if_neg h1, if_neg h2]
    rw [likeMatchF_pct_all (t.length + 3) t (by omega)]
    simp only [Bool.and_true, firstCharCI]
    exact charBeq_comm _ _

/-!
Claim C3: behaviour of generate_snippet when the query does not occur.
-/

/-- C3 (amended): for every text и query with no case-insensitive occurrence of
the query in the text, generate_snippet returns none (the absent value): it
does not raise, produces no highlight markup, and in particular does not
return a truncated prefix of the text. -/
theorem C3_no_occurrence_returns_none (text query : List Char) (ctx : Nat)
    (h : findCI text query = Option.none) :
    generate_snippet text query ctx = Option.none := by
  simp [generate_snippet, h]

/-- Witness for C3 at a concrete no-occurrence input. -/
theorem C3_no_occurrence_returns_none_witness :
    findCI (chars "hello") (chars "zzz") = Option.none ∧
    generate_snippet (chars "hello") (chars "zzz") 30 = Option.none :=
  ⟨by decide, C3_no_occurrence_returns_none (chars "hello") (chars "zzz") 30 (by decide)⟩

/-- C3 counterexample to the claim as stated: on a no-occurrence input the
function returns the absent value none, not the claimed first-100-characters
degraded snippet. -/
theorem C3_counterexample :
    generate_snippet (chars "hello") (chars "zzz") 30 = Option.none := by decide

/-!
Claim C8: import behaviour on a record read/parse failure.
-/

theorem import_go_error_mem (st : DbState) :
    ∀ (files : List (Except Unit SourceRecord)), Except.error () ∈ files →
    import_go st files = Except.error () := by
  intro files
  induction files generalizing st with
  | nil => intro h; simp at h
  | cons f rest ih =>
    intro h
    cases f with
    | error e => cases e; rfl
    | ok d =>
      have hr : Except.error () ∈ rest := by
        rcases List.mem_cons.mp h with h1 | h2
        · exact absurd h1 (by simp)
        · exact h2
      exact ih (insert_record st d) hr

/-- C8 (amended): a read or parse failure of any single record aborts the
whole import run: import_json_data stops at the failure, and as the transaction
is committed only after the loop, no records from the run are persisted (the
error outcome carries no database state); no per-record failure report is
produced. -/
theorem C8_parse_failure_aborts_import (files : List (Except Unit SourceRecord))
    (h : Except.error () ∈ files) :
    import_json_data files = Except.error () :=
  import_go_error_mem emptyDb files h

/-- Witness for C8 at a concrete file list containing a failure. -/
theorem C8_parse_failure_aborts_import_witness :
    Except.error () ∈ [Except.error (), Except.ok recPaper] ∧
    import_json_data [Except.error (), Except.ok recPaper] = Except.error () :=
  ⟨List.mem_cons_self _ _,
   C8_parse_failure_aborts_import [Except.error (), Except.ok recPaper]
     (List.mem_cons_self _ _)⟩

/-- C8 counterexample to the claim as stated: with a failing record between two
good ones, the import does not continue and does not insert the good records;
it aborts with an error carrying no state. -/
theorem C8_counterexample :
    import_json_data [Except.ok recPaper, Except.error (), Except.ok recPlain] =
      Except.error () := rfl

/-!
Claim C5: snippets attached to one researcher in a result page.
-/

/-- C5 (code bug): the repository's own regression tests
(src/tests/test_api.py line 151) require at most five snippets per researcher,
but search_researchers attaches one snippet slot per achievement section: a
researcher whose fourteen section texts all contain the two-character query ab
comes back from the fallback path with fourteen generated snippets, none
truncated. -/
theorem C5_fourteen_snippets_no_cap :
    search_researchers (fun _ _ => []) [rAllMatch] (some (chars "ab"))
        Option.none Option.none Option.none 50 0 =
      [(rAllMatch, like_snippets (chars "ab") rAllMatch)] ∧
    ((like_snippets (chars "ab") rAllMatch).filterMap id).length = 14 := by decide

/-!
Counterexamples for claims C1, C2, C4, C6 and C7.
-/

/-- C1 counterexample to the claim as stated: for the single-term query with a
trailing space, the indexed path is taken but the built match string is the
query as given, not the term itself. -/
theorem C1_counterexample :
    3 ≤ minTermLen (chars "abc ") ∧
    splitWs (chars "abc ") = [chars "abc"] ∧
    search_fts_query (chars "abc ") = chars "abc " ∧
    ¬ search_fts_query (chars "abc ") = chars "abc" := by decide

/-- C2 counterexample to the claim as stated: with the short query zq and no
filters, a researcher whose awards section text contains the query is not
counted (the fallback scans only five of the fourteen section texts), while a
researcher whose stored name contains the query is counted even though no
achievement text does. -/
theorem C2_counterexample :
    count_researchers [rAwards] (some (chars "zq"))
        Option.none Option.none Option.none = 0 ∧
    substrCI (chars "zq") rAwards.awards_text = true ∧
    count_researchers [rNamed] (some (chars "zq"))
        Option.none Option.none Option.none = 1 ∧
    (snippet_text_cols rNamed).all (fun t => !(substrCI (chars "zq") t)) = true := by decide

/-- C4 counterexample to the claim as stated: at text aaaa, query a and context
one, the returned snippet is longer than the claimed bound of
2 times context plus query length plus 6 (the highlight markup is not
accounted for), and the snippet with markup removed is not a contiguous
substring of the source text (the added ellipsis dots are not). -/
theorem C4_counterexample :
    generate_snippet (chars "aaaa") (chars "a") 1 =
      some (chars "<mark>a</mark><mark>a</mark>...") ∧
    2 * 1 + (chars "a").length + 6 < (chars "<mark>a</mark><mark>a</mark>...").length ∧
    findSub (stripMarks (chars "<mark>a</mark><mark>a</mark>...")) (chars "aaaa") =
      Option.none := by decide

/-- C6 counterexample to the claim as stated: a researcher whose stored English
name is smith is retained by the initial filter S, although the first character
of the stored name differs from the filter character in case. -/
theorem C6_counterexample :
    count_researchers [rSmith] Option.none Option.none Option.none (some 'S') = 1 ∧
    rSmith.name_en = chars "smith" := by decide

/-- C7 counterexample to the claim as stated: for a researcher whose English
name starts with a CJK character, no facet letter counts the researcher, so
the per-initial facet counts sum to zero while the unfiltered count is one. -/
theorem C7_counterexample :
    sumCounts (count_by_initial [rYamada] Option.none Option.none Option.none) = 0 ∧
    count_researchers [rYamada] Option.none Option.none Option.none Option.none = 1 := by
  decide

/-!
Facts about splitWs and the sort used by search_researchers.
-/

theorem dropWhile_length_le (p : Char → Bool) : ∀ (l : List Char),
    (l.dropWhile p).length ≤ l.length := by
  intro l
  induction l with
  | nil => simp [List.dropWhile]
  | cons a t ih =>
    simp only [List.dropWhile]
    split <;> simp only [List.length_cons] <;> omega

theorem splitWsF_irrel : ∀ (f1 : Nat) (l : List Char) (f2 : Nat),
    l.length ≤ f1 → l.length ≤ f2 →
    splitWsF f1 l = splitWsF f2 l := by
  intro f1
  induction f1 with
  | zero =>
    intro l f2 h1 h2
    cases l with
    | nil => cases f2 <;> rfl
    | cons c rest => simp at h1
  | succ f ih =>
    intro l f2 h1 h2
    cases l with
    | nil => cases f2 <;> rfl
    | cons c rest =>
      cases f2 with
      | zero => simp at h2
      | succ g =>
        simp only [List.length_cons] at h1 h2
        simp only [splitWsF]
        split
        · rw [ih rest g (by omega) (by omega)]
        · rename_i hc
          have hlen : ((c :: rest).dropWhile (fun x => !isSpaceCh x)).length ≤ rest.length := by
            rw [List.dropWhile_cons, if_pos (by simp_all)]
            exact dropWhile_length_le _ rest
          rw [ih ((c :: rest).dropWhile (fun x => !isSpaceCh x)) g
            (by omega) (by omega)]

theorem splitWs_nil_eq : splitWs [] = [] := rfl

theorem splitWs_cons_eq (c : Char) (rest : List Char) :
    splitWs (c :: rest) =
      (if isSpaceCh c then splitWs rest
      else ((c :: rest).takeWhile (fun x => !isSpaceCh x)) ::
        splitWs ((c :: rest).dropWhile (fun x => !isSpaceCh x))) := by
  show splitWsF (c :: rest).length (c :: rest) = _
  rw [show (c :: rest).length = rest.length + 1 from rfl]
  simp only [splitWsF]
  split
  · rw [splitWsF_irrel rest.length rest rest.length (by omega) (by omega)]
    rfl
  · rename_i hc
    have hlen : ((c :: rest).dropWhile (fun x => !isSpaceCh x)).length ≤ rest.length := by
      rw [List.dropWhile_cons, if_pos (by simp_all)]
      exact dropWhile_length_le _ rest
    rw [splitWsF_irrel rest.length ((c :: rest).dropWhile (fun x => !isSpaceCh x))
      ((c :: rest).dropWhile (fun x => !isSpaceCh x)).length (by omega) (by omega)]
    rfl

theorem takeWhile_all_append (p : Char → Bool) : ∀ (t : List Char) (x : Char)
    (l : List Char), (∀ c ∈ t, p c = true) → p x = false →
    (t ++ x :: l).takeWhile p = t := by
  intro t
  induction t with
  | nil =>
    intro x l _ hx
    simp [List.takeWhile, hx]
  | cons a t2 ih =>
    intro x l hall hx
    have ha : p a = true := hall a (List.mem_cons_self a t2)
    simp only [List.cons_append, List.takeWhile, ha, List.append_eq]
    rw [ih x l (fun c hc => hall c (List.mem_cons_of_mem a hc)) hx]

theorem dropWhile_all_append (p : Char → Bool) : ∀ (t : List Char) (x : Char)
    (l : List Char), (∀ c ∈ t, p c = true) → p x = false →
    (t ++ x :: l).dropWhile p = x :: l := by
  intro t
  induction t with
  | nil =>
    intro x l _ hx
    simp [List.dropWhile, hx]
  | cons a t2 ih =>
    intro x l hall hx
    have ha : p a = true := hall a (List.mem_cons_self a t2)
    simp only [List.cons_append, List.dropWhile, ha, List.append_eq]
    exact ih x l (fun c hc => hall c (List.mem_cons_of_mem a hc)) hx

theorem takeWhile_all (p : Char → Bool) : ∀ (t : List Char),
    (∀ c ∈ t, p c = true) → t.takeWhile p = t := by
  intro t
  induction t with
  | nil => intro; rfl
  | cons a t2 ih =>
    intro hall
    have ha : p a = true := hall a (List.mem_cons_self a t2)
    simp only [List.takeWhile, ha]
    rw [ih (fun c hc => hall c (List.mem_cons_of_mem a hc))]

theorem dropWhile_all (p : Char → Bool) : ∀ (t : List Char),
    (∀ c ∈ t, p c = true) → t.dropWhile p = [] := by
  intro t
  induction t with
  | nil => intro; rfl
  | cons a t2 ih =>
    intro hall
    have ha : p a = true := hall a (List.mem_cons_self a t2)
    simp only [List.dropWhile, ha]
    exact ih (fun c hc => hall c (List.mem_cons_of_mem a hc))

theorem splitWs_all_space : ∀ (q : List Char), (∀ c ∈ q, isSpaceCh c = true) →
    splitWs q = [] := by
  intro q
  induction q with
  | nil => intro h; rfl
  | cons c rest ih =>
    intro h
    have hc : isSpaceCh c = true := h c (List.mem_cons_self c rest)
    rw [splitWs_cons_eq, if_pos hc]
    exact ih (fun x hx => h x (List.mem_cons_of_mem c hx))

theorem length_insertByName (p : ResearcherRow × List (Option (List Char))) :
    ∀ (l : List (ResearcherRow × List (Option (List Char)))),
    (insertByName p l).length = l.length + 1 := by
  intro l
  induction l with
  | nil => rfl
  | cons a t ih =>
    simp only [insertByName]
    split
    · simp
    · simp [ih]

theorem length_sortByName : ∀ (l : List (ResearcherRow × List (Option (List Char)))),
    (sortByName l).length = l.length := by
  intro l
  induction l with
  | nil => rfl
  | cons a t ih =>
    simp only [sortByName]
    rw [length_insertByName, ih]
    rfl

theorem mem_insertByName (x p : ResearcherRow × List (Option (List Char))) :
    ∀ (l : List (ResearcherRow × List (Option (List Char)))),
    x ∈ insertByName p l → x = p ∨ x ∈ l := by
  intro l
  induction l with
  | nil =>
    intro h
    simp [insertByName] at h
    exact Or.inl h
  | cons a t ih =>
    intro h
    simp only [insertByName] at h
    split at h
    · rcases List.mem_cons.mp h with h1 | h2
      · exact Or.inl h1
      · exact Or.inr h2
    · rcases List.mem_cons.mp h with h1 | h2
      · exact Or.inr (by simp [h1])
      · rcases ih h2 with h3 | h4
        · exact Or.inl h3
        · exact Or.inr (List.mem_cons_of_mem a h4)

theorem mem_sortByName (x : ResearcherRow × List (Option (List Char))) :
    ∀ (l : List (ResearcherRow × List (Option (List Char)))),
    x ∈ sortByName l → x ∈ l := by
  intro l
  induction l with
  | nil => intro h; simp [sortByName] at h
  | cons a t ih =>
    intro h
    simp only [sortByName] at h
    rcases mem_insertByName x a (sortByName t) h with h1 | h2
    · simp [h1]
    · exact List.mem_cons_of_mem a (ih h2)

/-!
Branch characterisations of count_researchers and search_researchers.
-/

theorem count_none_eq (db : List ResearcherRow) (o1 o2 : Option (List Char))
    (init : Option Char) :
    count_researchers db Option.none o1 o2 init =
      (db.filter (fun r => opt_str_filter o1 r.org1 && opt_str_filter o2 r.org2 &&
        opt_initial_filter init r.name_en)).length := rfl

theorem count_empty_eq (db : List ResearcherRow) (o1 o2 : Option (List Char))
    (init : Option Char) :
    count_researchers db (some []) o1 o2 init =
      (db.filter (fun r => opt_str_filter o1 r.org1 && opt_str_filter o2 r.org2 &&
        opt_initial_filter init r.name_en)).length := by
  simp [count_researchers]

theorem count_fts_eq (db : List ResearcherRow) (q : List Char)
    (o1 o2 : Option (List Char)) (init : Option Char)
    (hq : ¬ q = []) (hmin : 3 ≤ minTermLen q) :
    count_researchers db (some q) o1 o2 init =
      (db.filter (fun r => fts_row_match (count_fts_query q) r &&
        (opt_str_filter o1 r.org1 && opt_str_filter o2 r.org2 &&
         opt_initial_filter init r.name_en))).length := by
  have hmin2 : 3 ≤ minList (List.map List.length (splitWs q)) := hmin
  simp only [count_researchers]
  rw [if_neg hq, if_pos hmin2]

theorem count_like_eq (db : List ResearcherRow) (q : List Char)
    (o1 o2 : Option (List Char)) (init : Option Char)
    (hq : ¬ q = []) (hmin : ¬ 3 ≤ minTermLen q) :
    count_researchers db (some q) o1 o2 init =
      (db.filter (fun r => like_row_match q r &&
        (opt_str_filter o1 r.org1 && opt_str_filter o2 r.org2 &&
         opt_initial_filter init r.name_en))).length := by
  have hmin2 : ¬ 3 ≤ minList (List.map List.length (splitWs q)) := hmin
  simp only [count_researchers]
  rw [if_neg hq, if_neg hmin2]

theorem search_none_eq (fSnip : List Char → ResearcherRow → List (Option (List Char)))
    (db : List ResearcherRow) (o1 o2 : Option (List Char)) (init : Option Char)
    (lim off : Nat) :
    search_researchers fSnip db Option.none o1 o2 init lim off =
      ((sortByName ((db.filter (fun r => opt_str_filter o1 r.org1 &&
        opt_str_filter o2 r.org2 && opt_initial_filter init r.name_en)).map
          (fun r => (r, ([] : List (Option (List Char))))))).drop off).take lim := rfl

theorem search_fts_eq (fSnip : List Char → ResearcherRow → List (Option (List Char)))
    (db : List ResearcherRow) (q : List Char) (o1 o2 : Option (List Char))
    (init : Option Char) (lim off : Nat)
    (hq : ¬ q = []) (hmin : 3 ≤ minTermLen q) :
    search_researchers fSnip db (some q) o1 o2 init lim off =
      ((sortByName ((db.filter (fun r => fts_row_match (search_fts_query q) r &&
        (opt_str_filter o1 r.org1 && opt_str_filter o2 r.org2 &&
         opt_initial_filter init r.name_en))).map
          (fun r => (r, fSnip (search_fts_query q) r)))).drop off).take lim := by
  have hmin2 : 3 ≤ minList (List.map List.length (splitWs q)) := hmin
  simp only [search_researchers]
  rw [if_neg hq, if_pos hmin2]

theorem search_like_eq (fSnip : List Char → ResearcherRow → List (Option (List Char)))
    (db : List ResearcherRow) (q : List Char) (o1 o2 : Option (List Char))
    (init : Option Char) (lim off : Nat)
    (hq : ¬ q = []) (hmin : ¬ 3 ≤ minTermLen q) :
    search_researchers fSnip db (some q) o1 o2 init lim off =
      ((sortByName ((db.filter (fun r => like_row_match q r &&
        (opt_str_filter o1 r.org1 && opt_str_filter o2 r.org2 &&
         opt_initial_filter init r.name_en))).map
          (fun r => (r, like_snippets q r)))).drop off).take lim := by
  have hmin2 : ¬ 3 ≤ minList (List.map List.length (splitWs q)) := hmin
  simp only [search_researchers]
  rw [if_neg hq, if_neg hmin2]

/-!
Claim C10: whitespace-only, empty and absent queries.
-/

/-- C10: a non-empty but all-whitespace query does not make either function
raise: the minimum-term computation over the empty term list is guarded to 0
(the functions are total), both take the LIKE fallback branch with the whole
whitespace string inside the percent pattern, while an empty query is treated
like an absent one: all researchers matching the filters are returned, with no
content condition and no snippets. -/
theorem C10_whitespace_and_empty_queries (q : List Char) (hq : ¬ q = [])
    (hws : ∀ c ∈ q, isSpaceCh c = true) :
    minTermLen q = 0 ∧
    search_query_plan (some q) = QueryPlan.like ('%' :: (q ++ ['%'])) ∧
    count_query_plan (some q) = QueryPlan.like ('%' :: (q ++ ['%'])) ∧
    (∀ db o1 o2 init,
      count_researchers db (some q) o1 o2 init =
        (db.filter (fun r => like_row_match q r &&
          (opt_str_filter o1 r.org1 && opt_str_filter o2 r.org2 &&
           opt_initial_filter init r.name_en))).length) ∧
    (∀ db o1 o2 init, count_researchers db (some []) o1 o2 init =
        count_researchers db Option.none o1 o2 init) ∧
    (∀ fSnip db o1 o2 init,
      (search_researchers fSnip db Option.none o1 o2 init db.length 0).length =
        count_researchers db Option.none o1 o2 init) ∧
    (∀ fSnip db o1 o2 init lim off p,
      p ∈ search_researchers fSnip db Option.none o1 o2 init lim off → p.2 = []) := by
  have hmin : minTermLen q = 0 := by
    simp [minTermLen, splitWs_all_space q hws, minList]
  have hnot3 : ¬ 3 ≤ minTermLen q := by omega
  refine ⟨hmin, ?_, ?_, ?_, ?_, ?_, ?_⟩
  · simp [search_query_plan, hq, hnot3]
  · simp [count_query_plan, hq, hnot3]
  · intro db o1 o2 init
    exact count_like_eq db q o1 o2 init hq hnot3
  · intro db o1 o2 init
    rw [count_empty_eq, count_none_eq]
  · intro fSnip db o1 o2 init
    rw [search_none_eq, count_none_eq]
    rw [List.drop_zero]
    have hlen : (sortByName ((db.filter (fun r => opt_str_filter o1 r.org1 &&
        opt_str_filter o2 r.org2 && opt_initial_filter init r.name_en)).map
          (fun r => (r, ([] : List (Option (List Char))))))).length =
        (db.filter (fun r => opt_str_filter o1 r.org1 && opt_str_filter o2 r.org2 &&
          opt_initial_filter init r.name_en)).length := by
      rw [length_sortByName, List.length_map]
    rw [List.length_take, hlen]
    have hle : (db.filter (fun r => opt_str_filter o1 r.org1 && opt_str_filter o2 r.org2 &&
        opt_initial_filter init r.name_en)).length ≤ db.length :=
      List.length_filter_le _ _
    omega
  · intro fSnip db o1 o2 init lim off p hp
    rw [search_none_eq] at hp
    have h1 := List.mem_of_mem_take hp
    have h2 := List.mem_of_mem_drop h1
    have h3 := mem_sortByName p _ h2
    rcases List.mem_map.mp h3 with ⟨r, hr, hpr⟩
    rw [← hpr]

/-- Witness for C10 at the concrete three-space query. -/
theorem C10_whitespace_and_empty_queries_witness :
    (¬ chars "   " = []) ∧ (∀ c ∈ chars "   ", isSpaceCh c = true) ∧
    minTermLen (chars "   ") = 0 ∧
    search_query_plan (some (chars "   ")) =
      QueryPlan.like ('%' :: (chars "   " ++ ['%'])) := by
  have h := C10_whitespace_and_empty_queries (chars "   ") (by decide) (by decide)
  exact ⟨by decide, by decide, h.1, h.2.1⟩

/-!
Terms produced by splitWs, and tokenization of the OR-joined match string.
-/

theorem splitWs_terms_aux : ∀ (n : Nat) (l : List Char), l.length ≤ n →
    ∀ t ∈ splitWs l, ¬ t = [] ∧ ∀ c ∈ t, isSpaceCh c = false := by
  intro n
  induction n with
  | zero =>
    intro l hl t ht
    cases l with
    | nil => simp [splitWs_nil_eq] at ht
    | cons c rest => simp at hl
  | succ n ih =>
    intro l hl t ht
    cases l with
    | nil => simp [splitWs_nil_eq] at ht
    | cons c rest =>
      simp only [List.length_cons] at hl
      rw [splitWs_cons_eq] at ht
      by_cases hc : isSpaceCh c = true
      · rw [if_pos hc] at ht
        exact ih rest (by omega) t ht
      · have hcf : isSpaceCh c = false := by simp at hc; exact hc
        rw [if_neg hc] at ht
        rcases List.mem_cons.mp ht with h1 | h2
        · subst h1
          constructor
          · simp [List.takeWhile, hcf]
          · intro x hx
            have := List.mem_takeWhile_imp hx
            simp at this
            exact this
        · have hlen : ((c :: rest).dropWhile (fun x => !isSpaceCh x)).length ≤ n := by
            rw [List.dropWhile_cons, if_pos (by simp [hcf])]
            have := dropWhile_length_le (fun x => !isSpaceCh x) rest
            omega
          exact ih _ hlen t h2

theorem splitWs_terms (l : List Char) (t : List Char) (ht : t ∈ splitWs l) :
    ¬ t = [] ∧ ∀ c ∈ t, isSpaceCh c = false :=
  splitWs_terms_aux l.length l (Nat.le_refl _) t ht

theorem splitWs_word (t : List Char) (hne : ¬ t = [])
    (hns : ∀ c ∈ t, isSpaceCh c = false) : splitWs t = [t] := by
  cases t with
  | nil => exact absurd rfl hne
  | cons c t2 =>
    have hc : isSpaceCh c = false := hns c (List.mem_cons_self c t2)
    rw [splitWs_cons_eq, if_neg (by simp [hc])]
    rw [takeWhile_all _ (c :: t2) (by intro x hx; simp [hns x hx])]
    rw [dropWhile_all _ (c :: t2) (by intro x hx; simp [hns x hx])]
    rw [splitWs_nil_eq]

theorem splitWs_word_space (t : List Char) (hne : ¬ t = [])
    (hns : ∀ c ∈ t, isSpaceCh c = false) (l : List Char) :
    splitWs (t ++ ' ' :: l) = t :: splitWs l := by
  cases t with
  | nil => exact absurd rfl hne
  | cons c t2 =>
    have hc : isSpaceCh c = false := hns c (List.mem_cons_self c t2)
    rw [List.cons_append, splitWs_cons_eq, if_neg (by simp [hc])]
    rw [← List.cons_append]
    rw [takeWhile_all_append _ (c :: t2) ' ' l (by intro x hx; simp [hns x hx]) (by decide)]
    rw [dropWhile_all_append _ (c :: t2) ' ' l (by intro x hx; simp [hns x hx]) (by decide)]
    rw [splitWs_cons_eq, if_pos (by decide)]

theorem foldl_min_le : ∀ (xs : List Nat) (a : Nat),
    xs.foldl Nat.min a ≤ a ∧ ∀ n ∈ xs, xs.foldl Nat.min a ≤ n := by
  intro xs
  induction xs with
  | nil => intro a; exact ⟨Nat.le_refl a, by simp⟩
  | cons x t ih =>
    intro a
    have h := ih (Nat.min a x)
    refine ⟨?_, ?_⟩
    · exact Nat.le_trans h.1 (Nat.min_le_left a x)
    · intro n hn
      rcases List.mem_cons.mp hn with h1 | h2
      · subst h1
        exact Nat.le_trans h.1 (Nat.min_le_right a n)
      · exact h.2 n h2

theorem minList_le_mem (xs : List Nat) (n : Nat) (h : n ∈ xs) : minList xs ≤ n := by
  cases xs with
  | nil => simp at h
  | cons x t =>
    rcases List.mem_cons.mp h with h1 | h2
    · subst h1
      exact (foldl_min_le t n).1
    · exact (foldl_min_le t x).2 n h2

theorem term_length_ge (q : List Char) (hmin : 3 ≤ minTermLen q) :
    ∀ t ∈ splitWs q, 3 ≤ t.length := by
  intro t ht
  exact Nat.le_trans hmin
    (minList_le_mem _ _ (List.mem_map_of_mem List.length ht))

theorem splitWs_ne_nil_of_min (q : List Char) (hmin : 3 ≤ minTermLen q) :
    ¬ splitWs q = [] := by
  intro heq
  rw [minTermLen, heq] at hmin
  simp [minList] at hmin

theorem joinOR_cons₂ (a b : List Char) (l : List (List Char)) :
    joinOR (a :: b :: l) = a ++ (chars " OR " ++ joinOR (b :: l)) := rfl

theorem joinOR_single (a : List Char) : joinOR [a] = a := by
  simp [joinOR, List.intercalate]

theorem splitWs_joinOR : ∀ (ts : List (List Char)),
    (∀ t ∈ ts, ¬ t = [] ∧ ∀ c ∈ t, isSpaceCh c = false) → ¬ ts = [] →
    splitWs (joinOR ts) = interOR ts := by
  intro ts
  induction ts with
  | nil => intro _ h; exact absurd rfl h
  | cons a ts2 ih =>
    intro hp _
    have ha := hp a (List.mem_cons_self a ts2)
    cases ts2 with
    | nil =>
      rw [joinOR_single]
      rw [splitWs_word a ha.1 ha.2]
      rfl
    | cons b ts3 =>
      rw [joinOR_cons₂]
      rw [show chars " OR " ++ joinOR (b :: ts3) =
        ' ' :: (chars "OR" ++ (' ' :: joinOR (b :: ts3))) from rfl]
      rw [show a ++ ' ' :: (chars "OR" ++ (' ' :: joinOR (b :: ts3))) =
        a ++ (' ' :: (chars "OR" ++ (' ' :: joinOR (b :: ts3)))) from rfl]
      rw [splitWs_word_space a ha.1 ha.2]
      rw [splitWs_word_space (chars "OR") (by decide) (by decide)]
      rw [ih (fun t ht => hp t (List.mem_cons_of_mem a ht)) (by simp)]
      rfl

theorem interOR_filter_any (P : List Char → Bool) : ∀ (ts : List (List Char)),
    (∀ t ∈ ts, ¬ t = orTok) →
    ((interOR ts).filter (fun t => t ≠ orTok)).any P = ts.any P := by
  intro ts
  induction ts with
  | nil => intro; rfl
  | cons a ts2 ih =>
    intro hp
    have ha : ¬ a = orTok := hp a (List.mem_cons_self a ts2)
    cases ts2 with
    | nil => simp [interOR, ha]
    | cons b ts3 =>
      have hrec := ih (fun t ht => hp t (List.mem_cons_of_mem a ht))
      rw [show interOR (a :: b :: ts3) = a :: orTok :: interOR (b :: ts3) from rfl]
      simp only [List.filter_cons]
      rw [if_pos (by simp [ha]), if_neg (by simp)]
      simp only [List.any_cons] at hrec ⊢
      rw [hrec]

theorem fts_match_terms (q : List Char) (hmin : 3 ≤ minTermLen q)
    (r : ResearcherRow) :
    fts_row_match (count_fts_query q) r =
      (splitWs q).any (fun t => (fts_indexed_cols r).any (fun col => substrCI t col)) := by
  have hterms := splitWs_terms q
  have hlen := term_length_ge q hmin
  have hnotOR : ∀ t ∈ splitWs q, ¬ t = orTok := by
    intro t ht heq
    have h3 := hlen t ht
    rw [heq] at h3
    simp [orTok, chars] at h3
  rw [count_fts_query]
  by_cases h1 : 1 < (splitWs q).length
  · rw [if_pos h1]
    rw [fts_row_match]
    rw [splitWs_joinOR (splitWs q) hterms (splitWs_ne_nil_of_min q hmin)]
    exact interOR_filter_any _ (splitWs q) hnotOR
  · rw [if_neg h1]
    rw [fts_row_match]
    cases hsp : splitWs q with
    | nil => exact absurd hsp (splitWs_ne_nil_of_min q hmin)
    | cons t ts2 =>
      cases ts2 with
      | nil =>
        have ht : ¬ t = orTok := hnotOR t (by rw [hsp]; exact List.mem_cons_self t [])
        simp [ht]
      | cons u ts3 =>
        rw [hsp] at h1
        simp at h1

/-!
Claim C1: branch selection and match-string construction of the two planners.
-/

/-- C1 (amended): for every non-empty query both search_researchers and
count_researchers split on whitespace and compute the guarded minimum term
length, and both choose the same branch with the same match string.  With
minimum at least three the indexed path is taken and the match string is the
terms joined with the OR operator for several terms, and the query string as
given for a single term (this equals the term itself only when the query
carries no surrounding whitespace); under the modelled FTS5 semantics the
match string matches a row exactly when any term occurs in some indexed
column (OR, not AND).  With minimum below three both take the LIKE fallback
whose pattern wraps the whole query string.  Consequently the unpaginated
search result length equals the count for every database and filter choice. -/
theorem C1_branch_agreement (q : List Char) (hq : ¬ q = []) :
    search_query_plan (some q) = count_query_plan (some q) ∧
    search_fts_query q = count_fts_query q ∧
    (3 ≤ minTermLen q →
      search_query_plan (some q) = QueryPlan.fts (search_fts_query q) ∧
      ((splitWs q).length = 1 → search_fts_query q = q) ∧
      (1 < (splitWs q).length → search_fts_query q = joinOR (splitWs q)) ∧
      (∀ r, fts_row_match (search_fts_query q) r =
        (splitWs q).any (fun t => (fts_indexed_cols r).any (fun col => substrCI t col)))) ∧
    (¬ 3 ≤ minTermLen q →
      search_query_plan (some q) = QueryPlan.like ('%' :: (q ++ ['%']))) ∧
    (∀ fSnip db o1 o2 init,
      (search_researchers fSnip db (some q) o1 o2 init db.length 0).length =
        count_researchers db (some q) o1 o2 init) := by
  refine ⟨rfl, rfl, ?_, ?_, ?_⟩
  · intro hmin
    refine ⟨?_, ?_, ?_, ?_⟩
    · simp only [search_query_plan]
      rw [if_neg hq, if_pos hmin]
    · intro h1
      simp only [search_fts_query]
      rw [if_neg (by omega)]
    · intro h1
      simp only [search_fts_query]
      rw [if_pos h1]
    · intro r
      have h := fts_match_terms q hmin r
      rw [show search_fts_query q = count_fts_query q from rfl]
      exact h
  · intro hmin
    simp only [search_query_plan]
    rw [if_neg hq, if_neg hmin]
  · intro fSnip db o1 o2 init
    by_cases hmin : 3 ≤ minTermLen q
    · rw [search_fts_eq fSnip db q o1 o2 init db.length 0 hq hmin,
        count_fts_eq db q o1 o2 init hq hmin]
      rw [show search_fts_query q = count_fts_query q from rfl]
      rw [List.drop_zero, List.length_take, length_sortByName, List.length_map]
      have hle := List.length_filter_le
        (fun r => fts_row_match (count_fts_query q) r &&
          (opt_str_filter o1 r.org1 && opt_str_filter o2 r.org2 &&
           opt_initial_filter init r.name_en)) db
      omega
    · rw [search_like_eq fSnip db q o1 o2 init db.length 0 hq hmin,
        count_like_eq db q o1 o2 init hq hmin]
      rw [List.drop_zero, List.length_take, length_sortByName, List.length_map]
      have hle := List.length_filter_le
        (fun r => like_row_match q r &&
          (opt_str_filter o1 r.org1 && opt_str_filter o2 r.org2 &&
           opt_initial_filter init r.name_en)) db
      omega

/-- Witness for C1 at a concrete two-term query. -/
theorem C1_branch_agreement_witness :
    (¬ chars "abc def" = []) ∧
    search_query_plan (some (chars "abc def")) = count_query_plan (some (chars "abc def")) :=
  ⟨by decide, (C1_branch_agreement (chars "abc def") (by decide)).1⟩

/-!
Claim C2: what the short-query fallback actually counts.
-/

/-- C2 (amended): for every query whose minimum term length is below three and
no other filters, count_researchers equals the number of researchers for whom
the full query string occurs as an ASCII-case-insensitive substring of one of
exactly ten columns: the five identity fields (both names, both organisations,
position) or five of the fourteen section texts (papers, books, presentations,
misc, research projects).  Identity-field matches do count, and matches found
only in the other nine section texts (awards, research interests, research
areas, works, research experience, education, committee memberships, teaching
experience, association memberships) do not.  Stated for queries without LIKE
wildcard characters, which would change the pattern's meaning. -/
theorem C2_short_query_fallback_count (db : List ResearcherRow) (q : List Char)
    (hq : ¬ q = []) (hmin : ¬ 3 ≤ minTermLen q) (h1 : '%' ∉ q) (h2 : '_' ∉ q) :
    count_researchers db (some q) Option.none Option.none Option.none =
      (db.filter (fun r =>
        substrCI q r.name_ja || substrCI q r.name_en || substrCI q r.org1 ||
        substrCI q r.org2 || substrCI q r.position || substrCI q r.papers_text ||
        substrCI q r.books_text || substrCI q r.presentations_text ||
        substrCI q r.misc_text || substrCI q r.research_projects_text)).length := by
  rw [count_like_eq db q Option.none Option.none Option.none hq hmin]
  congr 1
  apply List.filter_congr
  intro r _
  simp only [like_row_match, opt_str_filter, opt_initial_filter, Bool.and_true,
    likeMatch_sub q h1 h2]

/-- Witness for C2 at the concrete query zq over a one-researcher database. -/
theorem C2_short_query_fallback_count_witness :
    (¬ chars "zq" = []) ∧ (¬ 3 ≤ minTermLen (chars "zq")) ∧
    ('%' ∉ chars "zq") ∧ ('_' ∉ chars "zq") ∧
    count_researchers [rNamed] (some (chars "zq")) Option.none Option.none Option.none =
      ([rNamed].filter (fun r =>
        substrCI (chars "zq") r.name_ja || substrCI (chars "zq") r.name_en ||
        substrCI (chars "zq") r.org1 || substrCI (chars "zq") r.org2 ||
        substrCI (chars "zq") r.position || substrCI (chars "zq") r.papers_text ||
        substrCI (chars "zq") r.books_text || substrCI (chars "zq") r.presentations_text ||
        substrCI (chars "zq") r.misc_text ||
        substrCI (chars "zq") r.research_projects_text)).length :=
  ⟨by decide, by decide, by decide, by decide,
   C2_short_query_fallback_count [rNamed] (chars "zq")
     (by decide) (by decide) (by decide) (by decide)⟩

/-!
Claim C6: case sensitivity of the initial filter.
-/

theorem filter_comm_len (db : List ResearcherRow) (P Q FC : ResearcherRow → Bool)
    (h : ∀ r, P r = (Q r && FC r)) :
    (db.filter P).length = ((db.filter FC).filter Q).length := by
  rw [List.filter_filter]
  congr 1
  apply List.filter_congr
  intro r _
  rw [h r]

theorem count_init_comm (i : Char) (hi1 : ¬ i = '%') (hi2 : ¬ i = '_')
    (db : List ResearcherRow) (q : Option (List Char)) (o1 o2 : Option (List Char)) :
    count_researchers db q o1 o2 (some i) =
      count_researchers (db.filter (fun r => firstCharCI i r.name_en)) q o1 o2
        Option.none := by
  cases q with
  | none =>
    rw [count_none_eq db o1 o2 (some i),
      count_none_eq (db.filter (fun r => firstCharCI i r.name_en)) o1 o2 Option.none]
    apply filter_comm_len
    intro r
    simp only [opt_initial_filter, likeMatch_initial i hi1 hi2, Bool.and_true]
  | some qs =>
    by_cases hq : qs = []
    · subst hq
      rw [count_empty_eq db o1 o2 (some i),
        count_empty_eq (db.filter (fun r => firstCharCI i r.name_en)) o1 o2 Option.none]
      apply filter_comm_len
      intro r
      simp only [opt_initial_filter, likeMatch_initial i hi1 hi2, Bool.and_true]
    · by_cases hmin : 3 ≤ minTermLen qs
      · rw [count_fts_eq db qs o1 o2 (some i) hq hmin,
          count_fts_eq (db.filter (fun r => firstCharCI i r.name_en)) qs o1 o2
            Option.none hq hmin]
        apply filter_comm_len
        intro r
        simp only [opt_initial_filter, likeMatch_initial i hi1 hi2, Bool.and_true]
        cases fts_row_match (count_fts_query qs) r <;>
          cases opt_str_filter o1 r.org1 <;> cases opt_str_filter o2 r.org2 <;>
          cases firstCharCI i r.name_en <;> simp
      · rw [count_like_eq db qs o1 o2 (some i) hq hmin,
          count_like_eq (db.filter (fun r => firstCharCI i r.name_en)) qs o1 o2
            Option.none hq hmin]
        apply filter_comm_len
        intro r
        simp only [opt_initial_filter, likeMatch_initial i hi1 hi2, Bool.and_true]
        cases like_row_match qs r <;>
          cases opt_str_filter o1 r.org1 <;> cases opt_str_filter o2 r.org2 <;>
          cases firstCharCI i r.name_en <;> simp

/-- C6 (amended): a researcher is retained by the initial filter exactly when
the first character of the stored English display name equals the filter
character up to ASCII case (SQLite LIKE is ASCII-case-insensitive), in
count_researchers, in search_researchers, and in every per-initial facet
count; a researcher whose stored name begins with the same letter in the
opposite case IS retained, contrary to the claimed case-sensitivity. -/
theorem C6_initial_filter_case_insensitive (i : Char)
    (hi1 : ¬ i = '%') (hi2 : ¬ i = '_') :
    (∀ name, opt_initial_filter (some i) name = firstCharCI i name) ∧
    (∀ db q o1 o2, count_researchers db q o1 o2 (some i) =
      count_researchers (db.filter (fun r => firstCharCI i r.name_en)) q o1 o2
        Option.none) ∧
    (∀ fSnip db q o1 o2 lim off p,
      p ∈ search_researchers fSnip db q o1 o2 (some i) lim off →
      firstCharCI i p.1.name_en = true) ∧
    (∀ db q o1 o2, count_by_initial db q o1 o2 =
      lettersAZ.map (fun x => (x,
        count_researchers (db.filter (fun r => firstCharCI x r.name_en)) q o1 o2
          Option.none))) := by
  refine ⟨?_, ?_, ?_, ?_⟩
  · intro name
    exact likeMatch_initial i hi1 hi2 name
  · intro db q o1 o2
    exact count_init_comm i hi1 hi2 db q o1 o2
  · intro fSnip db q o1 o2 lim off p hp
    have hmem : ∀ (sel : List (ResearcherRow × List (Option (List Char)))) (lim2 off2 : Nat),
        p ∈ ((sortByName sel).drop off2).take lim2 → p ∈ sel := by
      intro sel lim2 off2 hmem2
      exact mem_sortByName p sel (List.mem_of_mem_drop (List.mem_of_mem_take hmem2))
    have hbase : ∀ (L : List ResearcherRow)
        (g : ResearcherRow → ResearcherRow × List (Option (List Char))),
        (∀ r, (g r).1 = r) → p ∈ L.map g → p.1 ∈ L := by
      intro L g hg hmemL
      rcases List.mem_map.mp hmemL with ⟨r, hr, hpr⟩
      rw [← hpr, hg r]
      exact hr
    cases q with
    | none =>
      rw [search_none_eq] at hp
      have h1 := hbase _ _ (fun r => rfl) (hmem _ _ _ hp)
      have h2 := (List.mem_filter.mp h1).2
      rcases Bool.and_eq_true_iff.mp h2 with ⟨h3, h4⟩
      simp only [opt_initial_filter] at h4
      rw [likeMatch_initial i hi1 hi2] at h4
      exact h4
    | some qs =>
      by_cases hq : qs = []
      · subst hq
        rw [show search_researchers fSnip db (some []) o1 o2 (some i) lim off =
            search_researchers fSnip db Option.none o1 o2 (some i) lim off from by
          simp [search_researchers]] at hp
        rw [search_none_eq] at hp
        have h1 := hbase _ _ (fun r => rfl) (hmem _ _ _ hp)
        have h2 := (List.mem_filter.mp h1).2
        rcases Bool.and_eq_true_iff.mp h2 with ⟨h3, h4⟩
        simp only [opt_initial_filter] at h4
        rw [likeMatch_initial i hi1 hi2] at h4
        exact h4
      · by_cases hmin : 3 ≤ minTermLen qs
        · rw [search_fts_eq fSnip db qs o1 o2 (some i) lim off hq hmin] at hp
          have h1 := hbase _ _ (fun r => rfl) (hmem _ _ _ hp)
          have h2 := (List.mem_filter.mp h1).2
          rcases Bool.and_eq_true_iff.mp h2 with ⟨h3, h4⟩
          rcases Bool.and_eq_true_iff.mp h4 with ⟨h5, h6⟩
          simp only [opt_initial_filter] at h6
          rw [likeMatch_initial i hi1 hi2] at h6
          exact h6
        · rw [search_like_eq fSnip db qs o1 o2 (some i) lim off hq hmin] at hp
          have h1 := hbase _ _ (fun r => rfl) (hmem _ _ _ hp)
          have h2 := (List.mem_filter.mp h1).2
          rcases Bool.and_eq_true_iff.mp h2 with ⟨h3, h4⟩
          rcases Bool.and_eq_true_iff.mp h4 with ⟨h5, h6⟩
          simp only [opt_initial_filter] at h6
          rw [likeMatch_initial i hi1 hi2] at h6
          exact h6
  · intro db q o1 o2
    have hW : ∀ x ∈ lettersAZ, ¬ x = '%' ∧ ¬ x = '_' := by decide
    apply List.map_congr_left
    intro x hx
    rw [count_init_comm x (hW x hx).1 (hW x hx).2 db q o1 o2]

/-- Witness for C6 at the filter letter S and the lower-case name smith. -/
theorem C6_initial_filter_case_insensitive_witness :
    (¬ 'S' = '%') ∧ (¬ 'S' = '_') ∧
    opt_initial_filter (some 'S') (chars "smith") = firstCharCI 'S' (chars "smith") :=
  ⟨by decide, by decide,
   (C6_initial_filter_case_insensitive 'S' (by decide) (by decide)).1 (chars "smith")⟩

/-!
Claim C7: sum of the per-initial facet counts.
-/

theorem sum_map_add (L : List Char) (f g : Char → Nat) :
    (L.map (fun i => f i + g i)).sum = (L.map f).sum + (L.map g).sum := by
  induction L with
  | nil => rfl
  | cons a t ih =>
    simp only [List.map_cons, List.sum_cons, ih]
    omega

theorem sum_indicator_zero (d : Char) : ∀ (L : List Char), d ∉ L.map asciiLower →
    (L.map (fun i => if (d == asciiLower i) = true then 1 else 0)).sum = 0 := by
  intro L
  induction L with
  | nil => intro _; rfl
  | cons a t ih =>
    intro h
    rw [List.map_cons] at h
    have h1 : ¬ d = asciiLower a := by
      intro he
      subst he
      exact h (List.mem_cons_self _ _)
    have h2 : d ∉ t.map asciiLower := fun hm => h (List.mem_cons_of_mem _ hm)
    have hb : (d == asciiLower a) = false := beq_eq_false_iff_ne.mpr h1
    simp only [List.map_cons, List.sum_cons, hb]
    rw [if_neg Bool.false_ne_true]
    simp only [Nat.zero_add]
    exact ih h2

theorem sum_indicator (d : Char) : ∀ (L : List Char), (L.map asciiLower).Nodup →
    d ∈ L.map asciiLower →
    (L.map (fun i => if (d == asciiLower i) = true then 1 else 0)).sum = 1 := by
  intro L
  induction L with
  | nil => intro _ h; exact absurd h (List.not_mem_nil d)
  | cons a t ih =>
    intro hnd hm
    rw [List.map_cons] at hnd hm
    rcases List.mem_cons.mp hm with he | hm2
    · have hb : (d == asciiLower a) = true := beq_iff_eq.mpr he
      have h2 : d ∉ t.map asciiLower := by
        rw [he]
        exact (List.nodup_cons.mp hnd).1
      simp only [List.map_cons, List.sum_cons, hb]
      rw [if_pos trivial, sum_indicator_zero d t h2]
    · have he : ¬ d = asciiLower a := by
        intro he2
        rw [he2] at hm2
        exact (List.nodup_cons.mp hnd).1 hm2
      have hb : (d == asciiLower a) = false := beq_eq_false_iff_ne.mpr he
      simp only [List.map_cons, List.sum_cons, hb]
      rw [if_neg Bool.false_ne_true]
      simp only [Nat.zero_add]
      exact ih (List.nodup_cons.mp hnd).2 hm2

theorem len_filter_cons (p : ResearcherRow → Bool) (r : ResearcherRow)
    (l : List ResearcherRow) :
    ((r :: l).filter p).length = (l.filter p).length + (if p r = true then 1 else 0) := by
  by_cases hc : p r = true
  · simp [List.filter_cons, hc]
  · simp [List.filter_cons, hc]

theorem sum_letters_filter (P : ResearcherRow → Bool) (db : List ResearcherRow)
    (h : ∀ r ∈ db, startsAsciiLetter r.name_en = true) :
    (lettersAZ.map (fun i =>
      ((db.filter (fun r => firstCharCI i r.name_en)).filter P).length)).sum =
    (db.filter P).length := by
  simp only [List.filter_filter]
  induction db with
  | nil =>
    simp only [List.filter_nil, List.length_nil]
    decide
  | cons r l ih =>
    have hr := h r (List.mem_cons_self r l)
    have hl : ∀ x ∈ l, startsAsciiLetter x.name_en = true :=
      fun x hx => h x (List.mem_cons_of_mem r hx)
    simp only [len_filter_cons]
    rw [sum_map_add lettersAZ
      (fun i => (l.filter (fun x => P x && firstCharCI i x.name_en)).length)
      (fun i => if (P r && firstCharCI i r.name_en) = true then 1 else 0)]
    have hsum2 : (lettersAZ.map
        (fun i => if (P r && firstCharCI i r.name_en) = true then 1 else 0)).sum =
        (if P r = true then 1 else 0) := by
      by_cases hp : P r = true
      · simp only [hp, Bool.true_and, if_pos rfl]
        cases hn : r.name_en with
        | nil =>
          rw [hn] at hr
          simp [startsAsciiLetter] at hr
        | cons c rest =>
          rw [hn] at hr
          simp only [startsAsciiLetter] at hr
          rcases List.any_eq_true.mp hr with ⟨i0, hi0, hbeq⟩
          have hd : asciiLower c ∈ lettersAZ.map asciiLower :=
            List.mem_map.mpr ⟨i0, hi0, (beq_iff_eq.mp hbeq).symm⟩
          simp only [hn, firstCharCI]
          exact sum_indicator (asciiLower c) lettersAZ (by decide) hd
      · have hp' : P r = false := by
          revert hp
          cases P r <;> simp
        simp only [hp', Bool.false_and, if_neg hp]
        simp only [show ((false : Bool) = true) = False by simp]
        simp only [if_neg (fun hfa : False => hfa)]
        decide
    rw [ih hl, hsum2]

/-- C7 (amended): summing the per-initial facet counts of count_by_initial over
the twenty-six letters A-Z equals count_researchers with the same query and
organization filters and no initial filter PROVIDED every researcher's stored
English display name begins with an ASCII letter; the twenty-six LIKE i%
initial filters partition exactly that set of researchers, and a researcher
whose name starts with any other character (for example a CJK character) is
counted by no facet letter, so without the proviso the sum can fall short of
the total. -/
theorem C7_initial_facets_sum (db : List ResearcherRow) (q : Option (List Char))
    (o1 o2 : Option (List Char))
    (h : ∀ r ∈ db, startsAsciiLetter r.name_en = true) :
    sumCounts (count_by_initial db q o1 o2) =
      count_researchers db q o1 o2 Option.none := by
  have hW : ∀ x ∈ lettersAZ, ¬ x = '%' ∧ ¬ x = '_' := by decide
  have e0 : (count_by_initial db q o1 o2).map Prod.snd =
      lettersAZ.map (fun i => count_researchers db q o1 o2 (some i)) := by
    simp [count_by_initial, List.map_map, Function.comp_def]
  simp only [sumCounts]
  rw [e0]
  have hcomm : ∀ i ∈ lettersAZ, count_researchers db q o1 o2 (some i) =
      count_researchers (db.filter (fun r => firstCharCI i r.name_en)) q o1 o2
        Option.none :=
    fun i hi => count_init_comm i (hW i hi).1 (hW i hi).2 db q o1 o2
  rw [List.map_congr_left hcomm]
  cases q with
  | none =>
    simp only [count_none_eq]
    exact sum_letters_filter
      (fun r => opt_str_filter o1 r.org1 && opt_str_filter o2 r.org2 &&
        opt_initial_filter Option.none r.name_en) db h
  | some qs =>
    by_cases hq : qs = []
    · subst hq
      simp only [count_empty_eq]
      exact sum_letters_filter
        (fun r => opt_str_filter o1 r.org1 && opt_str_filter o2 r.org2 &&
          opt_initial_filter Option.none r.name_en) db h
    · by_cases hmin : 3 ≤ minTermLen qs
      · have heq : ∀ (L : List ResearcherRow),
            count_researchers L (some qs) o1 o2 Option.none =
            (L.filter (fun r => fts_row_match (count_fts_query qs) r &&
              (opt_str_filter o1 r.org1 && opt_str_filter o2 r.org2 &&
               opt_initial_filter Option.none r.name_en))).length :=
          fun L => count_fts_eq L qs o1 o2 Option.none hq hmin
        simp only [heq]
        exact sum_letters_filter
          (fun r => fts_row_match (count_fts_query qs) r &&
            (opt_str_filter o1 r.org1 && opt_str_filter o2 r.org2 &&
             opt_initial_filter Option.none r.name_en)) db h
      · have heq : ∀ (L : List ResearcherRow),
            count_researchers L (some qs) o1 o2 Option.none =
            (L.filter (fun r => like_row_match qs r &&
              (opt_str_filter o1 r.org1 && opt_str_filter o2 r.org2 &&
               opt_initial_filter Option.none r.name_en))).length :=
          fun L => count_like_eq L qs o1 o2 Option.none hq hmin
        simp only [heq]
        exact sum_letters_filter
          (fun r => like_row_match qs r &&
            (opt_str_filter o1 r.org1 && opt_str_filter o2 r.org2 &&
             opt_initial_filter Option.none r.name_en)) db h

/-- Witness for C7 over a one-researcher database whose English name is smith. -/
theorem C7_initial_facets_sum_witness :
    (∀ r ∈ [rSmith], startsAsciiLetter r.name_en = true) ∧
    sumCounts (count_by_initial [rSmith] Option.none Option.none Option.none) =
      count_researchers [rSmith] Option.none Option.none Option.none Option.none :=
  ⟨by decide,
   C7_initial_facets_sum [rSmith] Option.none Option.none Option.none (by decide)⟩

/-!
Claim C9: achievement normalization and index postconditions of a full rebuild.
-/

theorem item_none_iff (rid sect : List Char) (f : List (List Char × J)) :
    item_to_achievement rid sect (J.o f) = Option.none ↔
      extract_text_content f = [] := by
  simp only [item_to_achievement]
  by_cases htc : extract_text_content f = []
  · rw [if_pos htc]
    exact iff_of_true rfl htc
  · rw [if_neg htc]
    exact iff_of_false (by simp) htc

theorem item_some_nonempty (rid sect : List Char) (it : J) (a : Achievement)
    (h : item_to_achievement rid sect it = some a) : ¬ a.text_content = [] := by
  cases it with
  | o f =>
    simp only [item_to_achievement] at h
    by_cases htc : extract_text_content f = []
    · rw [if_pos htc] at h
      exact absurd h (by simp)
    · rw [if_neg htc] at h
      have h2 := Option.some.inj h
      rw [← h2]
      exact htc
  | s v => simp [item_to_achievement] at h
  | n v => simp [item_to_achievement] at h
  | b v => simp [item_to_achievement] at h
  | a xs => simp [item_to_achievement] at h
  | null => simp [item_to_achievement] at h

theorem extract_ach_nonempty (rd : J) (rid : List Char) :
    ∀ a ∈ extract_achievements rd rid, ¬ a.text_content = [] := by
  intro a ha
  cases rd with
  | o rf =>
    simp only [extract_achievements] at ha
    by_cases he : rf.isEmpty
    · rw [if_pos he] at ha
      exact absurd ha (List.not_mem_nil a)
    · rw [if_neg he] at ha
      rcases List.mem_flatMap.mp ha with ⟨sec, hsec, hmem⟩
      rcases List.mem_filterMap.mp hmem with ⟨it, hit, heq⟩
      exact item_some_nonempty rid sec.2 it a heq
  | s v => simp [extract_achievements] at ha
  | n v => simp [extract_achievements] at ha
  | b v => simp [extract_achievements] at ha
  | a xs => simp [extract_achievements] at ha
  | null => simp [extract_achievements] at ha

theorem snd_mem_enumFrom {α : Type} : ∀ (l : List α) (n : Nat) (q : Nat × α),
    q ∈ List.enumFrom n l → q.2 ∈ l := by
  intro l
  induction l with
  | nil => intro n q h; exact absurd h (List.not_mem_nil q)
  | cons x xs ih =>
    intro n q h
    simp only [List.enumFrom] at h
    rcases List.mem_cons.mp h with he | hm
    · rw [he]
      exact List.mem_cons_self _ _
    · exact List.mem_cons_of_mem x (ih (n + 1) q hm)

theorem snd_mem_enum {α : Type} (l : List α) (q : Nat × α) (h : q ∈ l.enum) :
    q.2 ∈ l :=
  snd_mem_enumFrom l 0 q h

theorem import_go_ok : ∀ (recs : List SourceRecord) (st : DbState),
    import_go st (recs.map Except.ok) = Except.ok (recs.foldl insert_record st) := by
  intro recs
  induction recs with
  | nil => intro st; rfl
  | cons d rest ih =>
    intro st
    simp only [List.map_cons, List.foldl_cons, import_go]
    exact ih (insert_record st d)

theorem foldl_ach_nonempty : ∀ (recs : List SourceRecord) (st : DbState),
    (∀ p ∈ st.achievements, ¬ p.2.text_content = []) →
    ∀ p ∈ (recs.foldl insert_record st).achievements, ¬ p.2.text_content = [] := by
  intro recs
  induction recs with
  | nil => intro st h; exact h
  | cons d rest ih =>
    intro st h
    rw [List.foldl_cons]
    apply ih
    intro p hp
    simp only [insert_record] at hp
    rcases List.mem_append.mp hp with h1 | h2
    · exact h p h1
    · rcases List.mem_map.mp h2 with ⟨q, hq, hpq⟩
      have hq2 := extract_ach_nonempty d.researchmap_data d.id q.2
        (snd_mem_enum _ q hq)
      rw [← hpq]
      exact hq2

theorem foldl_fts_mirror : ∀ (recs : List SourceRecord) (st : DbState),
    st.achievements_fts = st.achievements.map achFts →
    (recs.foldl insert_record st).achievements_fts =
      (recs.foldl insert_record st).achievements.map achFts := by
  intro recs
  induction recs with
  | nil => intro st h; exact h
  | cons d rest ih =>
    intro st h
    rw [List.foldl_cons]
    apply ih
    simp only [insert_record]
    rw [h, List.map_append]

theorem numbered_fst (c : Nat) (l : List Achievement) :
    ((l.enum.map (fun p => (c + p.1, p.2))).map Prod.fst) =
      (List.range l.length).map (fun k => c + k) := by
  rw [List.map_map]
  have h1 : (Prod.fst ∘ fun p : Nat × Achievement => (c + p.1, p.2)) =
      ((fun k => c + k) ∘ Prod.fst) := rfl
  rw [h1, ← List.map_map, List.enum_map_fst]

theorem foldl_ids_nodup : ∀ (recs : List SourceRecord) (st : DbState),
    (st.achievements.map Prod.fst).Nodup →
    (∀ n ∈ st.achievements.map Prod.fst, n < st.next_id) →
    ((recs.foldl insert_record st).achievements.map Prod.fst).Nodup ∧
    (∀ n ∈ (recs.foldl insert_record st).achievements.map Prod.fst,
      n < (recs.foldl insert_record st).next_id) := by
  intro recs
  induction recs with
  | nil => intro st h1 h2; exact ⟨h1, h2⟩
  | cons d rest ih =>
    intro st h1 h2
    rw [List.foldl_cons]
    apply ih
    · simp only [insert_record, List.map_append, numbered_fst]
      apply h1.append ((List.nodup_range _).map (fun a b hab => by omega))
      intro x hxo hxn
      rcases List.mem_map.mp hxn with ⟨k, hk, hkx⟩
      have hx1 := h2 x hxo
      omega
    · intro n hn
      simp only [insert_record, List.map_append, numbered_fst] at hn ⊢
      rcases List.mem_append.mp hn with ho | hnew
      · have := h2 n ho
        omega
      · rcases List.mem_map.mp hnew with ⟨k, hk, hkn⟩
        have hk2 := List.mem_range.mp hk
        omega

theorem foldl_rfts : ∀ (recs : List SourceRecord) (st : DbState),
    (recs.foldl insert_record st).researchers_fts =
      st.researchers_fts ++ recs.map recIdx := by
  intro recs
  induction recs with
  | nil => intro st; simp
  | cons d rest ih =>
    intro st
    rw [List.foldl_cons, ih]
    simp [insert_record, List.append_assoc, List.map_cons]

theorem foldl_researchers : ∀ (recs : List SourceRecord) (st : DbState),
    (∀ d ∈ recs, d.id ∉ st.researchers.map ResearcherRec.id) →
    (recs.map SourceRecord.id).Nodup →
    (recs.foldl insert_record st).researchers = st.researchers ++ recs.map recRow := by
  intro recs
  induction recs with
  | nil => intro st _ _; simp
  | cons d rest ih =>
    intro st hfresh hnd
    rw [List.map_cons] at hnd
    rw [List.foldl_cons]
    have hd : d.id ∉ st.researchers.map ResearcherRec.id :=
      hfresh d (List.mem_cons_self _ _)
    have hins : (insert_record st d).researchers = st.researchers ++ [recRow d] := by
      simp only [insert_record, upsert_researcher]
      congr 1
      apply List.filter_eq_self.mpr
      intro x hx
      apply decide_eq_true
      intro he
      exact hd (List.mem_map.mpr ⟨x, hx, he⟩)
    have hfresh2 : ∀ e ∈ rest, e.id ∉ (insert_record st d).researchers.map
        ResearcherRec.id := by
      intro e he hmem
      rw [hins, List.map_append] at hmem
      rcases List.mem_append.mp hmem with hm1 | hm2
      · exact hfresh e (List.mem_cons_of_mem d he) hm1
      · simp only [List.map_cons, List.map_nil] at hm2
        rcases List.mem_cons.mp hm2 with h4 | h4
        · exact (List.nodup_cons.mp hnd).1 (List.mem_map.mpr ⟨e, he, h4⟩)
        · exact absurd h4 (List.not_mem_nil _)
    rw [ih (insert_record st d) hfresh2 (List.nodup_cons.mp hnd).2, hins]
    simp [List.append_assoc, List.map_cons]

theorem filter_key_zero {α β : Type} [BEq β] [LawfulBEq β] (key : α → β) :
    ∀ (L : List α) (b : β), b ∉ L.map key →
    (L.filter (fun x => key x == b)).length = 0 := by
  intro L
  induction L with
  | nil => intro b _; rfl
  | cons y t ih =>
    intro b h
    rw [List.map_cons] at h
    have h1 : ¬ key y = b := by
      intro he
      apply h
      rw [← he]
      exact List.mem_cons_self _ _
    have h2 : b ∉ t.map key := fun hm => h (List.mem_cons_of_mem _ hm)
    have hb : (key y == b) = false := by
      rw [beq_eq_false_iff_ne]
      exact h1
    rw [List.filter_cons, if_neg (by rw [hb]; exact Bool.false_ne_true)]
    exact ih b h2

theorem filter_key_one {α β : Type} [BEq β] [LawfulBEq β] (key : α → β) :
    ∀ (L : List α) (b : β), (L.map key).Nodup → b ∈ L.map key →
    (L.filter (fun x => key x == b)).length = 1 := by
  intro L
  induction L with
  | nil => intro b _ h; exact absurd h (List.not_mem_nil b)
  | cons y t ih =>
    intro b hnd hm
    rw [List.map_cons] at hnd hm
    rw [List.filter_cons]
    rcases List.mem_cons.mp hm with he | hm2
    · have hb : (key y == b) = true := beq_iff_eq.mpr he.symm
      rw [if_pos hb, List.length_cons]
      have h2 : b ∉ t.map key := by
        rw [he]
        exact (List.nodup_cons.mp hnd).1
      rw [filter_key_zero key t b h2]
    · have h1 : ¬ key y = b := by
        intro he2
        rw [← he2] at hm2
        exact (List.nodup_cons.mp hnd).1 hm2
      have hb : (key y == b) = false := by
        rw [beq_eq_false_iff_ne]
        exact h1
      rw [if_neg (by rw [hb]; exact Bool.false_ne_true)]
      exact ih b (List.nodup_cons.mp hnd).2 hm2

/-- C9: an item yields an achievement exactly when its extracted content blob
is non-empty (a dict item from which no title, author, venue, description or
date part is extracted is dropped, and every kept achievement carries a
non-empty blob), and after a full rebuild from parsed records with pairwise
distinct ids every stored achievement has a non-empty content blob, the
achievements_fts rows mirror the achievements rows one to one with exactly one
content-index row per stored achievement id, and every imported researcher has
exactly one researchers_fts identity row. -/
theorem C9_import_invariants (recs : List SourceRecord)
    (hnd : (recs.map SourceRecord.id).Nodup) :
    (∀ rid sect f, item_to_achievement rid sect (J.o f) = Option.none ↔
      extract_text_content f = []) ∧
    (∀ rid sect it a, item_to_achievement rid sect it = some a →
      ¬ a.text_content = []) ∧
    ∀ st, import_json_data (recs.map Except.ok) = Except.ok st →
      (∀ p ∈ st.achievements, ¬ p.2.text_content = []) ∧
      st.achievements_fts = st.achievements.map achFts ∧
      (∀ p ∈ st.achievements,
        (st.achievements_fts.filter (fun x => x.aid == p.1)).length = 1) ∧
      st.researchers = recs.map recRow ∧
      st.researchers_fts = recs.map recIdx ∧
      (∀ r ∈ st.researchers,
        (st.researchers_fts.filter (fun x => x.id == r.id)).length = 1) := by
  refine ⟨fun rid sect f => item_none_iff rid sect f,
    fun rid sect it a h => item_some_nonempty rid sect it a h, ?_⟩
  intro st hok
  simp only [import_json_data] at hok
  rw [import_go_ok recs emptyDb] at hok
  have hst := Except.ok.inj hok
  subst hst
  have hA := foldl_ach_nonempty recs emptyDb
    (by intro p hp; exact absurd hp (List.not_mem_nil p))
  have hB := foldl_fts_mirror recs emptyDb rfl
  have hC := foldl_ids_nodup recs emptyDb List.nodup_nil
    (by intro n hn; exact absurd hn (List.not_mem_nil n))
  have hD := foldl_researchers recs emptyDb
    (by intro d hd hmem; exact absurd hmem (List.not_mem_nil _)) hnd
  have hE := foldl_rfts recs emptyDb
  have hD2 : (recs.foldl insert_record emptyDb).researchers = recs.map recRow := by
    rw [hD]
    rfl
  have hE2 : (recs.foldl insert_record emptyDb).researchers_fts = recs.map recIdx := by
    rw [hE]
    rfl
  have hids : (recs.foldl insert_record emptyDb).achievements_fts.map AchFtsRow.aid =
      (recs.foldl insert_record emptyDb).achievements.map Prod.fst := by
    rw [hB, List.map_map]
    rfl
  refine ⟨hA, hB, ?_, hD2, hE2, ?_⟩
  · intro p hp
    apply filter_key_one AchFtsRow.aid
    · rw [hids]
      exact hC.1
    · rw [hids]
      exact List.mem_map.mpr ⟨p, hp, rfl⟩
  · intro r hr
    apply filter_key_one IdxRow.id
    · rw [hE2, List.map_map]
      exact hnd
    · rw [hE2, List.map_map]
      rw [hD2] at hr
      rcases List.mem_map.mp hr with ⟨d, hdm, hdr⟩
      rw [← hdr]
      exact List.mem_map.mpr ⟨d, hdm, rfl⟩

/-- Witness for C9 on two concrete parsed records with distinct ids. -/
theorem C9_import_invariants_witness :
    (([recPaper, recPlain].map SourceRecord.id).Nodup) ∧
    ((∀ rid sect f, item_to_achievement rid sect (J.o f) = Option.none ↔
      extract_text_content f = []) ∧
    (∀ rid sect it a, item_to_achievement rid sect it = some a →
      ¬ a.text_content = []) ∧
    ∀ st, import_json_data ([recPaper, recPlain].map Except.ok) = Except.ok st →
      (∀ p ∈ st.achievements, ¬ p.2.text_content = []) ∧
      st.achievements_fts = st.achievements.map achFts ∧
      (∀ p ∈ st.achievements,
        (st.achievements_fts.filter (fun x => x.aid == p.1)).length = 1) ∧
      st.researchers = [recPaper, recPlain].map recRow ∧
      st.researchers_fts = [recPaper, recPlain].map recIdx ∧
      (∀ r ∈ st.researchers,
        (st.researchers_fts.filter (fun x => x.id == r.id)).length = 1)) :=
  ⟨by decide, C9_import_invariants [recPaper, recPlain] (by decide)⟩

/-!
Claim C4: the snippet window contract of generate_snippet.
-/

theorem isPrefixOf_append_self : ∀ (l t : List Char), l.isPrefixOf (l ++ t) = true := by
  intro l t
  induction l with
  | nil => simp [List.isPrefixOf]
  | cons a as ih => simp [List.isPrefixOf, ih]

theorem markO_prefixOf_false (c : Char) (X : List Char) (hc : ¬ c = '<') :
    markO.isPrefixOf (c :: X) = false := by
  rw [show markO = '<' :: chars "mark>" from rfl]
  simp only [List.isPrefixOf]
  rw [beq_eq_false_iff_ne.mpr (fun h => hc h.symm), Bool.false_and]

theorem markC_prefixOf_false (c : Char) (X : List Char) (hc : ¬ c = '<') :
    markC.isPrefixOf (c :: X) = false := by
  rw [show markC = '<' :: chars "/mark>" from rfl]
  simp only [List.isPrefixOf]
  rw [beq_eq_false_iff_ne.mpr (fun h => hc h.symm), Bool.false_and]

theorem stripMarks_markO (z : List Char) : stripMarks (markO ++ z) = stripMarks z := by
  rw [show markO ++ z = '<' :: (chars "mark>" ++ z) from rfl, stripMarks_cons_eq]
  have hpp : markO.isPrefixOf ('<' :: (chars "mark>" ++ z)) = true :=
    isPrefixOf_append_self markO z
  rw [if_pos hpp]
  rfl

theorem stripMarks_markC (z : List Char) : stripMarks (markC ++ z) = stripMarks z := by
  rw [show markC ++ z = '<' :: (chars "/mark>" ++ z) from rfl, stripMarks_cons_eq]
  rw [if_neg (by
    intro hfa
    rw [show markO.isPrefixOf ('<' :: (chars "/mark>" ++ z)) = false from rfl] at hfa
    exact Bool.false_ne_true hfa)]
  have hpp : markC.isPrefixOf ('<' :: (chars "/mark>" ++ z)) = true :=
    isPrefixOf_append_self markC z
  rw [if_pos hpp]
  rfl

theorem stripMarks_append_clean : ∀ (w : List Char), '<' ∉ w → ∀ (z : List Char),
    stripMarks (w ++ z) = w ++ stripMarks z := by
  intro w
  induction w with
  | nil => intro _ z; simp
  | cons c t ih =>
    intro hw z
    have hc : ¬ c = '<' := by
      intro he
      apply hw
      rw [← he]
      exact List.mem_cons_self _ _
    have ht : '<' ∉ t := fun hm => hw (List.mem_cons_of_mem c hm)
    rw [List.cons_append, stripMarks_cons_eq]
    rw [if_neg (by
      intro hfa
      rw [markO_prefixOf_false c (t ++ z) hc] at hfa
      exact Bool.false_ne_true hfa)]
    rw [if_neg (by
      intro hfa
      rw [markC_prefixOf_false c (t ++ z) hc] at hfa
      exact Bool.false_ne_true hfa)]
    rw [ih ht z]
    rfl

theorem countTag_markO (z : List Char) : countTag (markO ++ z) = 1 + countTag z := by
  rw [show markO ++ z = '<' :: (chars "mark>" ++ z) from rfl, countTag_cons_eq]
  have hpp : markO.isPrefixOf ('<' :: (chars "mark>" ++ z)) = true :=
    isPrefixOf_append_self markO z
  rw [if_pos hpp]
  rfl

theorem countTag_append_clean : ∀ (w : List Char), '<' ∉ w → ∀ (z : List Char),
    countTag (w ++ z) = countTag z := by
  intro w
  induction w with
  | nil => intro _ z; simp
  | cons c t ih =>
    intro hw z
    have hc : ¬ c = '<' := by
      intro he
      apply hw
      rw [← he]
      exact List.mem_cons_self _ _
    have ht : '<' ∉ t := fun hm => hw (List.mem_cons_of_mem c hm)
    rw [List.cons_append, countTag_cons_eq]
    rw [if_neg (by
      intro hfa
      rw [markO_prefixOf_false c (t ++ z) hc] at hfa
      exact Bool.false_ne_true hfa)]
    rw [ih ht z]

theorem countTag_markC (z : List Char) : countTag (markC ++ z) = countTag z := by
  rw [show markC ++ z = '<' :: (chars "/mark>" ++ z) from rfl, countTag_cons_eq]
  rw [if_neg (by
    intro hfa
    rw [show markO.isPrefixOf ('<' :: (chars "/mark>" ++ z)) = false from rfl] at hfa
    exact Bool.false_ne_true hfa)]
  exact countTag_append_clean (chars "/mark>") (by decide) z

theorem stripMarks_highlight_aux (q : List Char) : ∀ (n : Nat) (s : List Char),
    s.length ≤ n → '<' ∉ s → stripMarks (highlight q s) = s := by
  intro n
  induction n with
  | zero =>
    intro s hlen hmem
    cases s with
    | nil => rfl
    | cons c rest => simp at hlen
  | succ m ih =>
    intro s hlen hmem
    cases s with
    | nil => rfl
    | cons c rest =>
      rw [highlight_cons_eq]
      by_cases hp : q ≠ [] ∧ prefixCI q (c :: rest) = true
      · rw [if_pos hp]
        have hql : 0 < q.length := List.length_pos.mpr hp.1
        have hw : '<' ∉ (c :: rest).take q.length :=
          fun hm => hmem (List.mem_of_mem_take hm)
        have hd : '<' ∉ (c :: rest).drop q.length :=
          fun hm => hmem (List.mem_of_mem_drop hm)
        have hdl : ((c :: rest).drop q.length).length ≤ m := by
          simp only [List.length_drop, List.length_cons]
          simp only [List.length_cons] at hlen
          omega
        rw [List.append_assoc, List.append_assoc]
        rw [stripMarks_markO, stripMarks_append_clean _ hw, stripMarks_markC,
          ih _ hdl hd, List.take_append_drop]
      · rw [if_neg hp]
        have hc : ¬ c = '<' := by
          intro he
          apply hmem
          rw [← he]
          exact List.mem_cons_self _ _
        have ht : '<' ∉ rest := fun hm => hmem (List.mem_cons_of_mem c hm)
        have hrl : rest.length ≤ m := by
          simp only [List.length_cons] at hlen
          omega
        rw [stripMarks_cons_eq]
        rw [if_neg (by
          intro hfa
          rw [markO_prefixOf_false c (highlight q rest) hc] at hfa
          exact Bool.false_ne_true hfa)]
        rw [if_neg (by
          intro hfa
          rw [markC_prefixOf_false c (highlight q rest) hc] at hfa
          exact Bool.false_ne_true hfa)]
        rw [ih rest hrl ht]

theorem stripMarks_highlight (q s : List Char) (hmem : '<' ∉ s) :
    stripMarks (highlight q s) = s :=
  stripMarks_highlight_aux q s.length s (Nat.le_refl _) hmem

theorem countTag_highlight_aux (q : List Char) : ∀ (n : Nat) (s : List Char),
    s.length ≤ n → '<' ∉ s → countTag (highlight q s) = countOcc q s := by
  intro n
  induction n with
  | zero =>
    intro s hlen hmem
    cases s with
    | nil => rfl
    | cons c rest => simp at hlen
  | succ m ih =>
    intro s hlen hmem
    cases s with
    | nil => rfl
    | cons c rest =>
      rw [highlight_cons_eq, countOcc_cons_eq]
      by_cases hp : q ≠ [] ∧ prefixCI q (c :: rest) = true
      · rw [if_pos hp, if_pos hp]
        have hql : 0 < q.length := List.length_pos.mpr hp.1
        have hw : '<' ∉ (c :: rest).take q.length :=
          fun hm => hmem (List.mem_of_mem_take hm)
        have hd : '<' ∉ (c :: rest).drop q.length :=
          fun hm => hmem (List.mem_of_mem_drop hm)
        have hdl : ((c :: rest).drop q.length).length ≤ m := by
          simp only [List.length_drop, List.length_cons]
          simp only [List.length_cons] at hlen
          omega
        rw [List.append_assoc, List.append_assoc]
        rw [countTag_markO, countTag_append_clean _ hw, countTag_markC,
          ih _ hdl hd]
      · rw [if_neg hp, if_neg hp]
        have hc : ¬ c = '<' := by
          intro he
          apply hmem
          rw [← he]
          exact List.mem_cons_self _ _
        have ht : '<' ∉ rest := fun hm => hmem (List.mem_cons_of_mem c hm)
        have hrl : rest.length ≤ m := by
          simp only [List.length_cons] at hlen
          omega
        rw [countTag_cons_eq]
        rw [if_neg (by
          intro hfa
          rw [markO_prefixOf_false c (highlight q rest) hc] at hfa
          exact Bool.false_ne_true hfa)]
        rw [ih rest hrl ht]

theorem countTag_highlight (q s : List Char) (hmem : '<' ∉ s) :
    countTag (highlight q s) = countOcc q s :=
  countTag_highlight_aux q s.length s (Nat.le_refl _) hmem

/-- C4 (amended): when the query occurs case-insensitively in a non-empty text
containing no opening angle bracket, generate_snippet returns a snippet whose
markup-free text is the contiguous window of the text around the first
occurrence (starting context characters before it, thus at most query length
plus twice context characters long), prefixed by an ellipsis exactly when text
was cut before the window and suffixed by one exactly when cut after, and
carrying exactly one case-preserving highlight span per residual occurrence of
the query in the ellipsed window; the claimed overall length bound of twice
context plus query length plus six characters and the claimed substring
property of the un-highlighted snippet both fail, on the markup and on the
ellipses respectively (see the counterexample). -/
theorem C4_snippet_window (text query : List Char) (ctx pos : Nat)
    (hf : findCI text query = some pos)
    (htext : ¬ text = []) (hq : ¬ query = []) (hlt : '<' ∉ text) :
    ∃ s win,
      generate_snippet text query ctx = some s ∧
      stripMarks s =
        (if 0 < pos - ctx then dotsL else []) ++ win ++
          (if min text.length (pos + query.length + ctx) < text.length then dotsL
           else []) ∧
      text = text.take (pos - ctx) ++ win ++
        text.drop (min text.length (pos + query.length + ctx)) ∧
      (text.take (pos - ctx)).length = pos - ctx ∧
      win.length ≤ query.length + 2 * ctx ∧
      countTag s = countOcc query
        ((if 0 < pos - ctx then dotsL else []) ++ win ++
          (if min text.length (pos + query.length + ctx) < text.length then dotsL
           else [])) := by
  have hps : pos ≤ text.length := findCI_le text query pos hf
  have hwin : '<' ∉ (text.drop (pos - ctx)).take
      (min text.length (pos + query.length + ctx) - (pos - ctx)) :=
    fun hm => hlt (List.mem_of_mem_drop (List.mem_of_mem_take hm))
  have h2 : '<' ∉ ((if 0 < pos - ctx then dotsL else []) ++
      (text.drop (pos - ctx)).take
        (min text.length (pos + query.length + ctx) - (pos - ctx)) ++
      (if min text.length (pos + query.length + ctx) < text.length then dotsL
       else [])) := by
    intro hm
    rcases List.mem_append.mp hm with hm1 | hm3
    · rcases List.mem_append.mp hm1 with hA | hW
      · by_cases hcut : 0 < pos - ctx
        · rw [if_pos hcut] at hA
          exact absurd hA (by decide)
        · rw [if_neg hcut] at hA
          exact absurd hA (List.not_mem_nil _)
      · exact hwin hW
    · by_cases hcut : min text.length (pos + query.length + ctx) < text.length
      · rw [if_pos hcut] at hm3
        exact absurd hm3 (by decide)
      · rw [if_neg hcut] at hm3
        exact absurd hm3 (List.not_mem_nil _)
  refine ⟨highlight query
      ((if 0 < pos - ctx then dotsL else []) ++
        (text.drop (pos - ctx)).take
          (min text.length (pos + query.length + ctx) - (pos - ctx)) ++
        (if min text.length (pos + query.length + ctx) < text.length then dotsL
         else [])),
    (text.drop (pos - ctx)).take
      (min text.length (pos + query.length + ctx) - (pos - ctx)),
    ?_, ?_, ?_, ?_, ?_, ?_⟩
  · simp only [generate_snippet]
    rw [if_neg (fun h => h.elim htext hq), hf]
  · exact stripMarks_highlight query _ h2
  · have e1a := List.take_append_drop
      (min text.length (pos + query.length + ctx) - (pos - ctx))
      (text.drop (pos - ctx))
    rw [List.drop_drop] at e1a
    rw [show (pos - ctx) +
        (min text.length (pos + query.length + ctx) - (pos - ctx)) =
        min text.length (pos + query.length + ctx) from by omega] at e1a
    apply Eq.symm
    rw [List.append_assoc, e1a, List.take_append_drop]
  · rw [List.length_take]
    omega
  · rw [List.length_take, List.length_drop]
    omega
  · exact countTag_highlight query _ h2

/-- Witness for C4 at a text cut on both sides of the window. -/
theorem C4_snippet_window_witness :
    (findCI (chars "abcdefghij") (chars "de") = some 3) ∧
    (¬ chars "abcdefghij" = []) ∧ (¬ chars "de" = []) ∧
    ('<' ∉ chars "abcdefghij") ∧
    (∃ s win,
      generate_snippet (chars "abcdefghij") (chars "de") 2 = some s ∧
      stripMarks s =
        (if 0 < 3 - 2 then dotsL else []) ++ win ++
          (if min (chars "abcdefghij").length (3 + (chars "de").length + 2) <
              (chars "abcdefghij").length then dotsL
           else []) ∧
      chars "abcdefghij" = (chars "abcdefghij").take (3 - 2) ++ win ++
        (chars "abcdefghij").drop
          (min (chars "abcdefghij").length (3 + (chars "de").length + 2)) ∧
      ((chars "abcdefghij").take (3 - 2)).length = 3 - 2 ∧
      win.length ≤ (chars "de").length + 2 * 2 ∧
      countTag s = countOcc (chars "de")
        ((if 0 < 3 - 2 then dotsL else []) ++ win ++
          (if min (chars "abcdefghij").length (3 + (chars "de").length + 2) <
              (chars "abcdefghij").length then dotsL
           else []))) :=
  ⟨by decide, by decide, by decide, by decide,
   C4_snippet_window (chars "abcdefghij") (chars "de") 2 3
     (by decide) (by decide) (by decide) (by decide)⟩
